import Mathlib

/-!
Verification of the event-counter core (src/core/report.py, src/core/schema.py).

Python strings are modelled as lists of characters (compared by code point,
exactly as Python compares strings), Python ints as Lean Int, and the record
keys Pair(date, event) as pairs of strings ordered lexicographically, exactly
as Python orders tuples of strings.
-/

namespace EventCounter

/-- A Python string, modelled as its list of characters. -/
abbrev Str := List Char

/-- Python string comparison: lexicographic by code point.
Models the order used by SortedDict keys and by heapq.merge. -/
def strLtB : Str → Str → Bool
  | [], [] => false
  | [], _ :: _ => true
  | _ :: _, [] => false
  | a :: as, b :: bs => if a < b then true else if b < a then false else strLtB as bs

/-- A decoded chunk row: (key text, count), as produced by partition_function. -/
abbrev Row := Str × Int

/-- Python tuple comparison on (str, int) pairs, the order heapq.merge uses
on the outputs of the key function partition_function. -/
def rowLtB (a b : Row) : Bool :=
  strLtB a.1 b.1 || (a.1 == b.1 && decide (a.2 < b.2))

/-- The key Pair(date, event) of src/core/report.py. -/
abbrev Key := Str × Str

/-- Python tuple comparison on (str, str) pairs: the SortedDict key order. -/
def pairLtB (a b : Key) : Bool :=
  strLtB a.1 b.1 || (a.1 == b.1 && strLtB a.2 b.2)

/-! ### Decimal digits, as written by the f-string and read back by int() -/

/-- The numeric value of an ASCII digit character. -/
def charVal (c : Char) : Nat := c.toNat - 48

/-- Little-endian digit characters of a natural number; fuel-based so that the
definition is structurally recursive and kernel-evaluable. -/
def natCharsRev (fuel n : Nat) : Str :=
  match fuel with
  | 0 => []
  | f + 1 => if n = 0 then [] else Nat.digitChar (n % 10) :: natCharsRev f (n / 10)

/-- The decimal representation of a count, as Python str() writes it. -/
def natChars (n : Nat) : Str :=
  if n = 0 then ['0'] else (natCharsRev n n).reverse

/-- Characters Python strips around an integer literal (the relevant
whitespace code points; exotic non-Latin-1 spaces are not modelled). -/
def isPySpace (c : Char) : Bool :=
  c = ' ' || c = '\t' || c = '\n' || c = '\r' || c = '\x0b' || c = '\x0c' ||
  c = '\x1c' || c = '\x1d' || c = '\x1e' || c = '\x1f' || c = '\x85' || c = '\xa0'

/-- Python str.strip of whitespace around an int literal. -/
def stripWs (s : Str) : Str :=
  ((s.dropWhile isPySpace).reverse.dropWhile isPySpace).reverse

/-- The digit-and-underscore scanner of Python int(): digits, with single
underscores that must sit between two digits. The Bool records a pending
underscore that the next character must follow with a digit. -/
def udScan : Nat → Bool → Str → Option Nat
  | acc, pend, [] => if pend then none else some acc
  | acc, pend, c :: rest =>
    if c.isDigit then udScan (10 * acc + charVal c) false rest
    else if c = '_' then (if pend then none else udScan acc true rest)
    else none

/-- The digit part of a Python int literal: nonempty, starts with a digit. -/
def parseUDigits : Str → Option Nat
  | [] => none
  | c :: rest => if c.isDigit then udScan (charVal c) false rest else none

/-- Head dispatch of Python int(): optional single sign, then digits. -/
def pyIntCore : Str → Option Int
  | [] => none
  | c :: r =>
    if c = '+' then (parseUDigits r).map (fun n => (n : Int))
    else if c = '-' then (parseUDigits r).map (fun n => -(n : Int))
    else (parseUDigits (c :: r)).map (fun n => (n : Int))

/-- Python int(str): optional surrounding whitespace, optional single sign,
then digits with single underscores between digits. -/
def pyInt (s : Str) : Option Int := pyIntCore (stripWs s)

/-! ### The chunk line codec: spill writing and partition_function -/

/-- Python text.rsplit(",", maxsplit=1) followed by 2-tuple unpacking:
the key text before the last comma and the raw count text after it.
none models the ValueError Python raises when the line has no comma. -/
def rsplitComma (s : Str) : Option (Str × Str) :=
  if ',' ∈ s then
    some ((s.reverse.drop ((s.reverse.takeWhile (fun c => c != ',')).length + 1)).reverse,
      (s.reverse.takeWhile (fun c => c != ',')).reverse)
  else none

/-- partition_function of count_events: splits the line at its last comma
into key text and int(count). none models the exceptions Python raises
(unpacking fails without a comma; int() fails on a malformed count). The
Python body reads (k if only_key else k, int(v)), which by operator
precedence is always the pair ((k if only_key else k), int(v)). -/
def partitionFn (text : Str) (onlyKey : Bool) : Option Row :=
  (rsplitComma text).bind fun kv =>
    (pyInt kv.2).map fun v => ((if onlyKey then kv.1 else kv.1), v)

/-- Decoding a chunk line: partition_function with its default flag. -/
def decodeLine (text : Str) : Option Row := partitionFn text true

/-- The key text written for Pair(date, event): the space join of the tuple. -/
def keyText (p : Key) : Str := p.1 ++ ' ' :: p.2

/-- One line of a spilled chunk, as the f-string of
spill_chunk_of_sorted_event_counts writes it: "date event,count\n". -/
def encodeLine (p : Key) (c : Nat) : Str :=
  keyText p ++ ',' :: (natChars c ++ ['\n'])

/-- The two-stage decode stated by the spec, section 4.1: split at the last
comma (partition_function, present in the code), then split the key text at
its space separator to recover date and event_name. The second stage is not
performed anywhere in src/core/report.py, which keeps the key text whole;
it is defined here only to state the round-trip property in the spec's
terms. none models a failing split (no space in the key text). -/
def splitFirstSpace (s : Str) : Option (Str × Str) :=
  if ' ' ∈ s then
    some (s.takeWhile (fun c => c != ' '),
      s.drop ((s.takeWhile (fun c => c != ' ')).length + 1))
  else none

/-- Full spec decode: key text and count, then date and event_name. -/
def specDecodeLine (line : Str) : Option (Key × Int) :=
  (decodeLine line).bind fun kv =>
    (splitFirstSpace kv.1).map fun de => ((de.1, de.2), kv.2)

/-! ### The partition-and-spill aggregator (get_sorted_events_chunks)

The SortedDict is modelled as a strictly sorted association list of
(key, count) entries; a record already carries its parse outcome:
some key for a valid record, none for a line whose JSONDecodeError or
SchemaValidationError was caught, logged and skipped. -/

/-- An entry of the in-memory map and of a spilled chunk. -/
abbrev Entry := Key × Nat

/-- SortedDict assignment: event_counts[key] = 1 + event_counts.get(key, 0),
on the sorted association list that models the SortedDict. -/
def bump : List Entry → Key → List Entry
  | [], k => [(k, 1)]
  | (k', c) :: rest, k =>
    if pairLtB k k' then (k, 1) :: (k', c) :: rest
    else if k = k' then (k', c + 1) :: rest
    else (k', c) :: bump rest k

/-- One loop iteration of get_sorted_events_chunks: a skipped record leaves
the state alone; a valid record bumps its key and, if the map now holds at
least max_keys_count keys, the whole map is spilled as a new chunk (in
ascending key order, the list order) and the map is cleared. -/
def aggStep (maxK : Int) (st : List Entry × List (List Entry)) (r : Option Key) :
    List Entry × List (List Entry) :=
  match r with
  | none => st
  | some k =>
    if maxK ≤ ((bump st.1 k).length : Int) then ([], st.2 ++ [bump st.1 k])
    else (bump st.1 k, st.2)

/-- get_sorted_events_chunks: fold the input, then one final spill of a
non-empty map. Each chunk is the entry list spill_chunk_of_sorted_event_counts
pops and writes, smallest key first. -/
def aggregate (input : List (Option Key)) (maxK : Int) : List (List Entry) :=
  if (input.foldl (aggStep maxK) ([], [])).1 = []
  then (input.foldl (aggStep maxK) ([], [])).2
  else (input.foldl (aggStep maxK) ([], [])).2
    ++ [(input.foldl (aggStep maxK) ([], [])).1]

/-- The valid records of the input, in order. -/
def validKeys (input : List (Option Key)) : List Key := input.filterMap id

/-- How many valid input records map to key p: the exact total. -/
def keyCount (input : List (Option Key)) (p : Key) : Nat := (validKeys input).count p

/-- Total count entry list l assigns to key p. -/
def entrySum (l : List Entry) (p : Key) : Nat :=
  ((l.filter (fun e => decide (e.1 = p))).map (fun e => e.2)).sum

/-- Total count a chunk list assigns to key p, summed over all chunks. -/
def chunksSum (cs : List (List Entry)) (p : Key) : Nat :=
  (cs.map (fun c => entrySum c p)).sum

/-- The map state after the first i input records have been processed. -/
def aggState (input : List (Option Key)) (maxK : Int) (i : Nat) : List Entry :=
  ((input.take i).foldl (aggStep maxK) ([], [])).1

/-- Chunk entries are strictly ascending by key (Python tuple order). -/
def sortedEntries (l : List Entry) : Prop :=
  l.Pairwise (fun a b => pairLtB a.1 b.1 = true)

/-! ### The k-way merge of count_events (heapq.merge) -/

/-- Total number of buffered rows across all chunk cursors. -/
def totalLen (ls : List (List Row)) : Nat := (ls.map List.length).sum

/-- Choose between the head row r of the current iterable (order index 0)
and the best pick js of the later iterables: the heap compares
[key, order, ...], so the later pick wins only when strictly smaller. -/
def pickBetter (r : Row) (o : Option (Nat × Row)) : Option (Nat × Row) :=
  match o with
  | none => some (0, r)
  | some js => if rowLtB js.2 r = true then some (js.1 + 1, js.2) else some (0, r)

/-- The index and row heapq.merge pops next: the first nonempty iterable
whose head row is minimal under Python tuple comparison of the
partition_function keys. -/
def pickHead : List (List Row) → Option (Nat × Row)
  | [] => none
  | [] :: rest => (pickHead rest).map (fun ir => (ir.1 + 1, ir.2))
  | (r :: _) :: rest => pickBetter r (pickHead rest)

/-- Advance the cursor of the i-th iterable past its popped head. -/
def dropHeadAt : List (List Row) → Nat → List (List Row)
  | [], _ => []
  | l :: rest, 0 => l.tail :: rest
  | l :: rest, i + 1 => l :: dropHeadAt rest i

/-- heapq.merge over the decoded chunk cursors: repeatedly pop the minimal
head. Fuel makes the recursion structural; it is run with fuel equal to the
total number of rows, which is exactly enough. -/
def mergeRows : Nat → List (List Row) → List Row
  | 0, _ => []
  | fuel + 1, ls =>
    match pickHead ls with
    | none => []
    | some ir => ir.2 :: mergeRows fuel (dropHeadAt ls ir.1)

/-- Each chunk cursor is sorted: no later row is below its head, adjacent. -/
def chunkSortedLe (l : List Row) : Prop :=
  l.Chain' (fun u v => rowLtB v u = false)

/-! ### The coalescing loop of count_events -/

/-- The running previous_key / previous_sum loop of count_events, with the
iteration turned into structural recursion over the merged row stream.
none is Python's initial previous_key = None; a previous key equal to the
empty string is falsy in Python, so the branch `if not previous_key` also
resets on it without yielding, and the final `if previous_key` does not
emit it. -/
def coalesce : Option Row → List Row → List Row
  | none, [] => []
  | some pr, [] => if pr.1 = [] then [] else [pr]
  | none, r :: rest => coalesce (some r) rest
  | some pr, r :: rest =>
    if pr.1 = [] then coalesce (some r) rest
    else if r.1 = pr.1 then coalesce (some (pr.1, pr.2 + r.2)) rest
    else pr :: coalesce (some r) rest

/-- Each chunk handle read as its stream of decoded rows. Under the
all-lines-decode guard of countEvents this is exactly the line-by-line
image of partition_function. -/
def decodeChunks (chunks : List (List Str)) : List (List Row) :=
  chunks.map (List.filterMap decodeLine)

/-- count_events: merge all chunk cursors with heapq.merge keyed by
partition_function, then coalesce runs of equal keys. A line that
partition_function cannot decode raises inside the merge and aborts the
whole run with no output: the run's result is modelled as none exactly
when some line of some chunk is malformed. -/
def countEvents (chunks : List (List Str)) : Option (List Row) :=
  if chunks.all (fun c => c.all (fun l => (decodeLine l).isSome)) then
    some (coalesce none
      (mergeRows (totalLen (decodeChunks chunks)) (decodeChunks chunks)))
  else none

/-- Total count the row list assigns to key text t. -/
def rowSum (l : List Row) (t : Str) : Int :=
  ((l.filter (fun r => decide (r.1 = t))).map (fun r => r.2)).sum

/-- The count still pending in previous_key / previous_sum for key text t. -/
def pendSum : Option Row → Str → Int
  | none, _ => 0
  | some q, t => if q.1 = t then q.2 else 0

/-! ### The end-to-end pipeline -/

/-- The lines of one spilled chunk, as written to its temporary file. -/
def chunkLines (chunk : List Entry) : List Str :=
  chunk.map (fun e => encodeLine e.1 e.2)

/-- run_app: aggregate into spilled chunk files, then count_events over them.
none models the run aborting inside the merge with no finished report. -/
def runReport (input : List (Option Key)) (maxK : Int) : Option (List Row) :=
  countEvents ((aggregate input maxK).map chunkLines)

/-- All derived dates of the valid input have one common length (for
example, ISO dates): under this hypothesis the line encoding of keys is
injective and order-preserving, so string order agrees with key order. -/
def datesEqLen (input : List (Option Key)) : Prop :=
  ∀ p ∈ validKeys input, ∀ q ∈ validKeys input, p.1.length = q.1.length

/-- The decoded row stream of one spilled chunk. -/
def rowsOf (chunk : List Entry) : List Row :=
  chunk.map (fun e => (keyText e.1, (e.2 : Int)))

/-! ### src/core/schema.py: values, field types and Schema.validate

Python values that json.loads can produce (floats are not modelled; no
claim concerns them). Operations carry the exception they raise on a value
of the wrong type, exactly as Python does: `in` on an int raises TypeError,
indexing a str or list with a str key raises TypeError, a missing dict key
raises KeyError. -/

inductive PyVal where
  | pstr (s : Str)
  | pint (n : Int)
  | pbool (b : Bool)
  | pnone
  | plist (xs : List PyVal)
  | pdict (kvs : List (Str × PyVal))

/-- type(value).__name__ for the modelled values. -/
def typeName : PyVal → Str
  | .pstr _ => ['s', 't', 'r']
  | .pint _ => ['i', 'n', 't']
  | .pbool _ => ['b', 'o', 'o', 'l']
  | .pnone => ['N', 'o', 'n', 'e', 'T', 'y', 'p', 'e']
  | .plist _ => ['l', 'i', 's', 't']
  | .pdict _ => ['d', 'i', 'c', 't']

/-- str(n) for a Python int. -/
def intChars (n : Int) : Str :=
  if n < 0 then '-' :: natChars n.natAbs else natChars n.natAbs

mutual
/-- repr(value): the form str() uses for values nested inside containers.
String escaping inside quotes is not modelled; no claim depends on it. -/
def pyRepr : PyVal → Str
  | .pstr s => '\'' :: s ++ ['\'']
  | .pint n => intChars n
  | .pbool b => if b then ['T', 'r', 'u', 'e'] else ['F', 'a', 'l', 's', 'e']
  | .pnone => ['N', 'o', 'n', 'e']
  | .plist xs => '[' :: pyReprList xs ++ [']']
  | .pdict kvs => Char.ofNat 123 :: pyReprDict kvs ++ [Char.ofNat 125]

def pyReprList : List PyVal → Str
  | [] => []
  | [x] => pyRepr x
  | x :: xs => pyRepr x ++ ',' :: ' ' :: pyReprList xs

def pyReprDict : List (Str × PyVal) → Str
  | [] => []
  | [kv] => ('\'' :: kv.1 ++ ['\'']) ++ ':' :: ' ' :: pyRepr kv.2
  | kv :: kvs =>
    ('\'' :: kv.1 ++ ['\'']) ++ ':' :: ' ' :: pyRepr kv.2
      ++ ',' :: ' ' :: pyReprDict kvs
end

/-- str(value): a str is itself, anything else its repr. -/
def pyStrOf : PyVal → Str
  | .pstr s => s
  | v => pyRepr v

/-- str.lower(), on the ASCII range. -/
def pyLower (s : Str) : Str := s.map Char.toLower

/-- The FieldTypes enum of src/core/schema.py. -/
inductive FieldTypes where
  | str
  | int
  | enum
  | bool
deriving DecidableEq

/-- FieldTypes.value: the string each enum member carries. -/
def typeTag : FieldTypes → Str
  | .str => ['s', 't', 'r']
  | .int => ['i', 'n', 't']
  | .enum => ['e', 'n', 'u', 'm']
  | .bool => ['b', 'o', 'o', 'l']

/-- A FieldType: a type tag with optional enum variants (empty if none). -/
structure FieldType where
  type : FieldTypes
  variants : List Str

/-- A schema field. -/
structure Field where
  name : Str
  type : FieldType
  required : Bool

/-- FieldType.validate: enum membership of str(value).lower(), otherwise
comparison of the type tag against type(value).__name__. -/
def fieldTypeValidate (ft : FieldType) (v : PyVal) : Bool :=
  if ft.type = FieldTypes.enum then ft.variants.contains (pyLower (pyStrOf v))
  else typeTag ft.type == typeName v

/-- Field.validate delegates to its type. -/
def fieldValidate (f : Field) (v : PyVal) : Bool := fieldTypeValidate f.type v

/-- The exceptions Schema.validate can raise: its own SchemaValidationError
(message abbreviated to the field name, or empty for unknown fields), and
the TypeError / KeyError that Python operations raise on ill-typed values,
which the caller of parse_event does not catch. -/
inductive VErr where
  | schemaErr (msg : Str)
  | typeErr
  | keyErr
deriving DecidableEq

/-- Python == between a str and an arbitrary value. -/
def pyEqStrB (name : Str) : PyVal → Bool
  | .pstr s => name == s
  | _ => false

/-- Python substring membership: name in s. -/
def strContainsSub (pat s : Str) : Bool :=
  (List.range (s.length + 1)).any (fun i => ((s.drop i).take pat.length) == pat)

/-- Python `name in value`: dict key lookup, list membership, str substring;
TypeError on int, bool and None, which are not iterable. -/
def pyContains (name : Str) (v : PyVal) : Except VErr Bool :=
  match v with
  | .pdict kvs => .ok (kvs.any (fun kv => kv.1 == name))
  | .plist xs => .ok (xs.any (pyEqStrB name))
  | .pstr s => .ok (strContainsSub name s)
  | _ => .error .typeErr

/-- Python value[name] with a str key: dict lookup (KeyError when absent);
TypeError on every other type. -/
def pyGetItem (name : Str) (v : PyVal) : Except VErr PyVal :=
  match v with
  | .pdict kvs =>
    match kvs.find? (fun kv => kv.1 == name) with
    | some kv => .ok kv.2
    | none => .error .keyErr
  | _ => .error .typeErr

/-- Python len(value); TypeError on int, bool and None. -/
def pyLen (v : PyVal) : Except VErr Nat :=
  match v with
  | .pdict kvs => .ok kvs.length
  | .plist xs => .ok xs.length
  | .pstr s => .ok s.length
  | _ => .error .typeErr

/-- seen.add(name) on the list modelling the seen set. -/
def seenInsert (seen : List Str) (n : Str) : List Str :=
  if seen.contains n then seen else seen ++ [n]

/-- The field loop of Schema.validate, then the unknown-fields length check.
Mirrors the source: a missing optional field is skipped; a missing required
field raises SchemaValidationError; a present required field is type-checked
(the getitem runs only then, thanks to Python short-circuit evaluation);
every present field is added to seen; finally len(raw_event) is compared
with len(seen). -/
def validateFields (raw : PyVal) : List Field → List Str → Except VErr Unit
  | [], seen =>
    (pyLen raw).bind fun n =>
      if n ≠ seen.length then .error (.schemaErr []) else .ok ()
  | f :: rest, seen =>
    (pyContains f.name raw).bind fun b =>
      if b = false then
        if f.required = false then validateFields raw rest seen
        else .error (.schemaErr f.name)
      else
        if f.required then
          (pyGetItem f.name raw).bind fun v =>
            if fieldValidate f v = false then .error (.schemaErr f.name)
            else validateFields raw rest (seenInsert seen f.name)
        else validateFields raw rest (seenInsert seen f.name)

/-- Schema.validate. -/
def schemaValidate (fields : List Field) (raw : PyVal) : Except VErr Unit :=
  validateFields raw fields []

/-- to_date of parse_event: the prefix before the first T, or else the
first space (the whole string when neither occurs). -/
def toDate (s : Str) : Str :=
  if s.contains 'T' then s.takeWhile (fun c => c != 'T')
  else s.takeWhile (fun c => c != ' ')

def tsName : Str := ['t', 'i', 'm', 'e', 's', 't', 'a', 'm', 'p']

def evName : Str := ['e', 'v', 'e', 'n', 't']

/-- parse_event: json decoding is upstream (see InLine); validate, then
build Pair(to_date(event["timestamp"]), event["event"]). A non-str
timestamp raises TypeError inside to_date ("T" in raw_date); a non-str
event value is modelled as the same fatal TypeError that Python's later
tuple comparisons raise — unreachable under the repository's schemas,
which declare both fields as required str. -/
def parseEventV (fields : List Field) (v : PyVal) : Except VErr Key :=
  (schemaValidate fields v).bind fun _ =>
    (pyGetItem tsName v).bind fun tv =>
      match tv with
      | .pstr ts =>
        (pyGetItem evName v).bind fun ev =>
          match ev with
          | .pstr e => .ok (toDate ts, e)
          | _ => .error .typeErr
      | _ => .error .typeErr

/-- One input line, after json.loads: malformed stands for a line whose
JSONDecodeError the aggregator catches and logs. -/
inductive InLine where
  | malformed
  | value (v : PyVal)

/-- The except clause of get_sorted_events_chunks: JSONDecodeError and
SchemaValidationError are caught and the line is skipped with a warning;
any other exception (TypeError, KeyError) propagates and kills the run. -/
def classifyLine (fields : List Field) (l : InLine) : Except VErr (Option Key) :=
  match l with
  | .malformed => .ok none
  | .value v =>
    match parseEventV fields v with
    | .ok k => .ok (some k)
    | .error (.schemaErr _) => .ok none
    | .error e => .error e

/-- The aggregator run over raw lines: classify every line (an uncaught
exception aborts the whole run), then aggregate the parse outcomes. -/
def runAgg (fields : List Field) (lines : List InLine) (maxK : Int) :
    Except VErr (List (List Entry)) :=
  (lines.mapM (classifyLine fields)).map (fun opts => aggregate opts maxK)

/-- The two-field schema the repository's tests build: required str
timestamp and required str event. -/
def schema01 : List Field :=
  [⟨tsName, ⟨FieldTypes.str, []⟩, true⟩, ⟨evName, ⟨FieldTypes.str, []⟩, true⟩]

/-- Rows carrying equal key texts sit adjacently: anything between two rows
of one key carries that same key. -/
def equalKeysAdjacent (l : List Row) : Prop :=
  ∀ (i j k : Nat) (hi : i < l.length) (hj : j < l.length) (hk : k < l.length),
    i ≤ j → j ≤ k → (l.get ⟨i, hi⟩).1 = (l.get ⟨k, hk⟩).1 →
    (l.get ⟨j, hj⟩).1 = (l.get ⟨i, hi⟩).1

theorem strLtB_cons (x y : Char) (xs ys : Str) :
    strLtB (x :: xs) (y :: ys) =
      if x < y then true else if y < x then false else strLtB xs ys := rfl

theorem strLtB_cons_self (x : Char) (xs ys : Str) :
    strLtB (x :: xs) (x :: ys) = strLtB xs ys := by
  rw [strLtB_cons, if_neg (lt_irrefl x), if_neg (lt_irrefl x)]

theorem bool_ne_true {b : Bool} (h : b = false) : b ≠ true := by simp [h]

theorem strLtB_irrefl : ∀ s : Str, strLtB s s = false := by
  intro s
  induction s with
  | nil => rfl
  | cons a as ih => rw [strLtB_cons_self]; exact ih

theorem strLtB_trans : ∀ {a b c : Str}, strLtB a b = true → strLtB b c = true →
    strLtB a c = true := by
  intro a
  induction a with
  | nil =>
    intro b c hab hbc
    cases b with
    | nil => cases hab
    | cons y ys =>
      cases c with
      | nil => cases hbc
      | cons z zs => rfl
  | cons x xs ih =>
    intro b c hab hbc
    cases b with
    | nil => cases hab
    | cons y ys =>
      cases c with
      | nil => cases hbc
      | cons z zs =>
        rcases lt_trichotomy x y with hxy | hxy | hxy
        · rcases lt_trichotomy y z with hyz | hyz | hyz
          · rw [strLtB_cons, if_pos (lt_trans hxy hyz)]
          · subst hyz
            rw [strLtB_cons, if_pos hxy]
          · rw [strLtB_cons, if_neg (asymm hyz), if_pos hyz] at hbc
            cases hbc
        · subst hxy
          rw [strLtB_cons_self] at hab
          rcases lt_trichotomy x z with hxz | hxz | hxz
          · rw [strLtB_cons, if_pos hxz]
          · subst hxz
            rw [strLtB_cons_self] at hbc ⊢
            exact ih hab hbc
          · rw [strLtB_cons, if_neg (asymm hxz), if_pos hxz] at hbc
            cases hbc
        · rw [strLtB_cons, if_neg (asymm hxy), if_pos hxy] at hab
          cases hab

theorem strLtB_total : ∀ {a b : Str}, strLtB a b = false → strLtB b a = false →
    a = b := by
  intro a
  induction a with
  | nil =>
    intro b hab _
    cases b with
    | nil => rfl
    | cons y ys => cases hab
  | cons x xs ih =>
    intro b hab hba
    cases b with
    | nil => cases hba
    | cons y ys =>
      rcases lt_trichotomy x y with hxy | hxy | hxy
      · rw [strLtB_cons, if_pos hxy] at hab
        cases hab
      · subst hxy
        rw [strLtB_cons_self] at hab hba
        rw [ih hab hba]
      · rw [strLtB_cons, if_neg (asymm hxy), if_pos hxy] at hba
        cases hba

theorem strLtB_asymm : ∀ {a b : Str}, strLtB a b = true → strLtB b a = false := by
  intro a b hab
  cases h : strLtB b a with
  | false => rfl
  | true =>
    have : strLtB a a = true := strLtB_trans hab h
    exact absurd this (bool_ne_true (strLtB_irrefl a))

theorem strLtB_ne : ∀ {a b : Str}, strLtB a b = true → a ≠ b := by
  intro a b hab he
  subst he
  exact absurd hab (bool_ne_true (strLtB_irrefl a))

theorem strLtB_of_ne : ∀ {a b : Str}, strLtB a b = false → a ≠ b →
    strLtB b a = true := by
  intro a b hab hne
  cases h : strLtB b a with
  | true => rfl
  | false => exact absurd (strLtB_total hab h) hne

/-- From a < b and not (c < b), conclude a < c. -/
theorem strLtB_trans_of_not_lt : ∀ {a b c : Str}, strLtB a b = true →
    strLtB c b = false → strLtB a c = true := by
  intro a b c hab hcb
  cases hac : strLtB a c with
  | true => rfl
  | false =>
    cases hca : strLtB c a with
    | true => exact absurd (strLtB_trans hca hab) (bool_ne_true hcb)
    | false =>
      have : a = c := strLtB_total hac hca
      subst this
      exact absurd hab (bool_ne_true hcb)

/-- Not-less-than is transitive. -/
theorem strLtB_not_lt_trans : ∀ {a b c : Str}, strLtB b a = false →
    strLtB c b = false → strLtB c a = false := by
  intro a b c hba hcb
  cases hca : strLtB c a with
  | false => rfl
  | true =>
    cases hbc : strLtB b c with
    | true => exact absurd (strLtB_trans hbc hca) (bool_ne_true hba)
    | false =>
      have : b = c := strLtB_total hbc hcb
      subst this
      exact absurd hca (bool_ne_true hba)

theorem strLtB_append_same : ∀ (c a b : Str),
    strLtB (c ++ a) (c ++ b) = strLtB a b := by
  intro c
  induction c with
  | nil => intro a b; rfl
  | cons x xs ih =>
    intro a b
    rw [List.cons_append, List.cons_append, strLtB_cons_self]
    exact ih a b

theorem strLtB_append_eqlen : ∀ {a b : Str}, a.length = b.length →
    strLtB a b = true → ∀ (x y : Str), strLtB (a ++ x) (b ++ y) = true := by
  intro a
  induction a with
  | nil =>
    intro b hlen hab _ _
    cases b with
    | nil => cases hab
    | cons y ys => simp at hlen
  | cons u us ih =>
    intro b hlen hab x y
    cases b with
    | nil => simp at hlen
    | cons v vs =>
      rcases lt_trichotomy u v with huv | huv | huv
      · rw [List.cons_append, List.cons_append, strLtB_cons, if_pos huv]
      · subst huv
        rw [strLtB_cons_self] at hab
        rw [List.cons_append, List.cons_append, strLtB_cons_self]
        exact ih (by simpa using hlen) hab x y
      · rw [strLtB_cons, if_neg (asymm huv), if_pos huv] at hab
        cases hab

theorem rowLtB_iff {a b : Row} :
    rowLtB a b = true ↔ strLtB a.1 b.1 = true ∨ (a.1 = b.1 ∧ a.2 < b.2) := by
  simp [rowLtB]

theorem rowLtB_irrefl (a : Row) : rowLtB a a = false := by
  cases h : rowLtB a a with
  | false => rfl
  | true =>
    rcases rowLtB_iff.mp h with h1 | h2
    · exact absurd h1 (bool_ne_true (strLtB_irrefl a.1))
    · exact absurd h2.2 (lt_irrefl a.2)

theorem rowLtB_trans {a b c : Row} (hab : rowLtB a b = true)
    (hbc : rowLtB b c = true) : rowLtB a c = true := by
  rcases rowLtB_iff.mp hab with h1 | h1 <;> rcases rowLtB_iff.mp hbc with h2 | h2
  · exact rowLtB_iff.mpr (Or.inl (strLtB_trans h1 h2))
  · exact rowLtB_iff.mpr (Or.inl (h2.1 ▸ h1))
  · exact rowLtB_iff.mpr (Or.inl (h1.1 ▸ h2))
  · exact rowLtB_iff.mpr (Or.inr ⟨h1.1.trans h2.1, lt_trans h1.2 h2.2⟩)

theorem rowLtB_total {a b : Row} (hab : rowLtB a b = false)
    (hba : rowLtB b a = false) : a = b := by
  have h1 : strLtB a.1 b.1 = false := by
    cases h : strLtB a.1 b.1 with
    | false => rfl
    | true => exact absurd (rowLtB_iff.mpr (Or.inl h)) (bool_ne_true hab)
  have h2 : strLtB b.1 a.1 = false := by
    cases h : strLtB b.1 a.1 with
    | false => rfl
    | true => exact absurd (rowLtB_iff.mpr (Or.inl h)) (bool_ne_true hba)
  have hk : a.1 = b.1 := strLtB_total h1 h2
  have hv : a.2 = b.2 := by
    rcases lt_trichotomy a.2 b.2 with h | h | h
    · exact absurd (rowLtB_iff.mpr (Or.inr ⟨hk, h⟩)) (bool_ne_true hab)
    · exact h
    · exact absurd (rowLtB_iff.mpr (Or.inr ⟨hk.symm, h⟩)) (bool_ne_true hba)
  exact Prod.ext hk hv

theorem rowLtB_asymm {a b : Row} (hab : rowLtB a b = true) :
    rowLtB b a = false := by
  cases h : rowLtB b a with
  | false => rfl
  | true =>
    have : rowLtB a a = true := rowLtB_trans hab h
    exact absurd this (bool_ne_true (rowLtB_irrefl a))

/-- Not-less-than on rows is transitive. -/
theorem rowLtB_not_lt_trans {a b c : Row} (hba : rowLtB b a = false)
    (hcb : rowLtB c b = false) : rowLtB c a = false := by
  cases hca : rowLtB c a with
  | false => rfl
  | true =>
    cases hbc : rowLtB b c with
    | true => exact absurd (rowLtB_trans hbc hca) (bool_ne_true hba)
    | false =>
      have : b = c := rowLtB_total hbc hcb
      subst this
      exact absurd hca (bool_ne_true hba)

/-- A not-less-than consequence: row keys cannot decrease. -/
theorem rowLtB_false_key {a b : Row} (h : rowLtB b a = false) :
    strLtB b.1 a.1 = false := by
  cases hk : strLtB b.1 a.1 with
  | false => rfl
  | true => exact absurd (rowLtB_iff.mpr (Or.inl hk)) (bool_ne_true h)

theorem pairLtB_iff {a b : Key} :
    pairLtB a b = true ↔ strLtB a.1 b.1 = true ∨ (a.1 = b.1 ∧ strLtB a.2 b.2 = true) := by
  simp [pairLtB]

theorem pairLtB_irrefl (a : Key) : pairLtB a a = false := by
  cases h : pairLtB a a with
  | false => rfl
  | true =>
    rcases pairLtB_iff.mp h with h1 | h2
    · exact absurd h1 (bool_ne_true (strLtB_irrefl a.1))
    · exact absurd h2.2 (bool_ne_true (strLtB_irrefl a.2))

theorem pairLtB_trans {a b c : Key} (hab : pairLtB a b = true)
    (hbc : pairLtB b c = true) : pairLtB a c = true := by
  rcases pairLtB_iff.mp hab with h1 | h1 <;> rcases pairLtB_iff.mp hbc with h2 | h2
  · exact pairLtB_iff.mpr (Or.inl (strLtB_trans h1 h2))
  · exact pairLtB_iff.mpr (Or.inl (h2.1 ▸ h1))
  · exact pairLtB_iff.mpr (Or.inl (h1.1 ▸ h2))
  · exact pairLtB_iff.mpr (Or.inr ⟨h1.1.trans h2.1, strLtB_trans h1.2 h2.2⟩)

theorem pairLtB_total {a b : Key} (hab : pairLtB a b = false)
    (hba : pairLtB b a = false) : a = b := by
  have h1 : strLtB a.1 b.1 = false := by
    cases h : strLtB a.1 b.1 with
    | false => rfl
    | true => exact absurd (pairLtB_iff.mpr (Or.inl h)) (bool_ne_true hab)
  have h2 : strLtB b.1 a.1 = false := by
    cases h : strLtB b.1 a.1 with
    | false => rfl
    | true => exact absurd (pairLtB_iff.mpr (Or.inl h)) (bool_ne_true hba)
  have hk : a.1 = b.1 := strLtB_total h1 h2
  have h3 : strLtB a.2 b.2 = false := by
    cases h : strLtB a.2 b.2 with
    | false => rfl
    | true => exact absurd (pairLtB_iff.mpr (Or.inr ⟨hk, h⟩)) (bool_ne_true hab)
  have h4 : strLtB b.2 a.2 = false := by
    cases h : strLtB b.2 a.2 with
    | false => rfl
    | true => exact absurd (pairLtB_iff.mpr (Or.inr ⟨hk.symm, h⟩)) (bool_ne_true hba)
  exact Prod.ext hk (strLtB_total h3 h4)

theorem pairLtB_asymm {a b : Key} (hab : pairLtB a b = true) :
    pairLtB b a = false := by
  cases h : pairLtB b a with
  | false => rfl
  | true =>
    have : pairLtB a a = true := pairLtB_trans hab h
    exact absurd this (bool_ne_true (pairLtB_irrefl a))

theorem pairLtB_of_ne {a b : Key} (hab : pairLtB a b = false) (hne : a ≠ b) :
    pairLtB b a = true := by
  cases h : pairLtB b a with
  | true => rfl
  | false => exact absurd (pairLtB_total hab h) hne

theorem natCharsRev_eq_digits : ∀ (f n : Nat), n ≤ f →
    natCharsRev f n = (Nat.digits 10 n).map Nat.digitChar := by
  intro f
  induction f with
  | zero =>
    intro n hn
    have : n = 0 := Nat.le_zero.mp hn
    subst this
    simp [natCharsRev]
  | succ f ih =>
    intro n hn
    by_cases h0 : n = 0
    · subst h0
      simp [natCharsRev]
    · have hpos : 0 < n := Nat.pos_of_ne_zero h0
      rw [Nat.digits_def' (by norm_num : 1 < 10) hpos]
      have hdiv : n / 10 ≤ f := by
        have : n / 10 < n := Nat.div_lt_self hpos (by norm_num)
        omega
      simp only [natCharsRev, if_neg h0, List.map_cons]
      rw [ih (n / 10) hdiv]

theorem digitChar_isDigit {d : Nat} (h : d < 10) :
    (Nat.digitChar d).isDigit = true := by
  interval_cases d <;> decide

theorem charVal_digitChar {d : Nat} (h : d < 10) :
    charVal (Nat.digitChar d) = d := by
  interval_cases d <;> decide

theorem natChars_all_digit (n : Nat) : ∀ c ∈ natChars n, c.isDigit = true := by
  intro c hc
  by_cases h0 : n = 0
  · subst h0
    simp [natChars] at hc
    subst hc
    decide
  · simp only [natChars, if_neg h0, List.mem_reverse] at hc
    rw [natCharsRev_eq_digits n n le_rfl] at hc
    obtain ⟨d, hd, rfl⟩ := List.mem_map.mp hc
    exact digitChar_isDigit (Nat.digits_lt_base (by norm_num) hd)

theorem natChars_ne_nil (n : Nat) : natChars n ≠ [] := by
  by_cases h0 : n = 0
  · subst h0
    simp [natChars]
  · simp only [natChars, if_neg h0, ne_eq, List.reverse_eq_nil_iff]
    rw [natCharsRev_eq_digits n n le_rfl]
    simp [Nat.digits_ne_nil_iff_ne_zero.mpr h0]

theorem isDigit_not_special {c : Char} (h : c.isDigit = true) :
    c ≠ '+' ∧ c ≠ '-' ∧ c ≠ ',' ∧ c ≠ '_' ∧ isPySpace c = false := by
  refine ⟨?_, ?_, ?_, ?_, ?_⟩
  · intro he; subst he; exact absurd h (by decide)
  · intro he; subst he; exact absurd h (by decide)
  · intro he; subst he; exact absurd h (by decide)
  · intro he; subst he; exact absurd h (by decide)
  · cases hs : isPySpace c with
    | false => rfl
    | true =>
      simp only [isPySpace, Bool.or_eq_true, decide_eq_true_eq, or_assoc] at hs
      rcases hs with h1 | h1 | h1 | h1 | h1 | h1 | h1 | h1 | h1 | h1 | h1 | h1 <;>
        (subst h1; exact absurd h (by decide))

theorem udScan_digits : ∀ (l : Str) (acc : Nat), (∀ c ∈ l, c.isDigit = true) →
    udScan acc false l = some (l.foldl (fun a c => 10 * a + charVal c) acc) := by
  intro l
  induction l with
  | nil => intro acc _; rfl
  | cons c rest ih =>
    intro acc hall
    have hc : c.isDigit = true := hall c (List.mem_cons_self c rest)
    simp only [udScan, if_pos hc, List.foldl_cons]
    exact ih _ (fun x hx => hall x (List.mem_cons_of_mem c hx))

theorem parseUDigits_digits {l : Str} (hall : ∀ c ∈ l, c.isDigit = true)
    (hne : l ≠ []) :
    parseUDigits l = some (l.foldl (fun a c => 10 * a + charVal c) 0) := by
  cases l with
  | nil => exact absurd rfl hne
  | cons c rest =>
    have hc : c.isDigit = true := hall c (List.mem_cons_self c rest)
    simp only [parseUDigits, if_pos hc, List.foldl_cons]
    rw [udScan_digits rest (charVal c)
      (fun x hx => hall x (List.mem_cons_of_mem c hx))]
    norm_num

theorem foldl_digitChar_map : ∀ (L : List Nat), (∀ d ∈ L, d < 10) →
    ∀ acc : Nat,
      (L.map Nat.digitChar).foldl (fun a c => 10 * a + charVal c) acc
        = Nat.ofDigits 10 L.reverse + acc * 10 ^ L.length := by
  intro L
  induction L with
  | nil => intro _ acc; simp [Nat.ofDigits]
  | cons d L ih =>
    intro hall acc
    have hd : d < 10 := hall d (List.mem_cons_self d L)
    simp only [List.map_cons, List.foldl_cons, List.reverse_cons, List.length_cons]
    rw [ih (fun x hx => hall x (List.mem_cons_of_mem d hx))
        (10 * acc + charVal (Nat.digitChar d)),
      charVal_digitChar hd, Nat.ofDigits_append, Nat.ofDigits_singleton,
      List.length_reverse]
    ring

theorem parseUDigits_natChars (n : Nat) : parseUDigits (natChars n) = some n := by
  by_cases h0 : n = 0
  · subst h0; decide
  · rw [parseUDigits_digits (natChars_all_digit n) (natChars_ne_nil n)]
    simp only [natChars, if_neg h0]
    rw [natCharsRev_eq_digits n n le_rfl, ← List.map_reverse]
    rw [foldl_digitChar_map ((Nat.digits 10 n).reverse)
      (fun d hd => Nat.digits_lt_base (by norm_num) (List.mem_reverse.mp hd)) 0]
    simp [Nat.ofDigits_digits]

theorem dropWhile_all_false {α : Type} {p : α → Bool} :
    ∀ {l : List α}, (∀ x ∈ l, p x = false) → l.dropWhile p = l := by
  intro l
  induction l with
  | nil => intro _; rfl
  | cons x xs _ =>
    intro hall
    rw [List.dropWhile_cons, if_neg (by simp [hall x (List.mem_cons_self x xs)])]

theorem takeWhile_append_cons {α : Type} (p : α → Bool) {xs : List α}
    (h : ∀ x ∈ xs, p x = true) (y : α) (ys : List α) (hy : p y = false) :
    (xs ++ y :: ys).takeWhile p = xs := by
  induction xs with
  | nil => simp [List.takeWhile_cons, hy]
  | cons x xs ih =>
    rw [List.cons_append, List.takeWhile_cons,
      if_pos (by simp [h x (List.mem_cons_self x xs)])]
    rw [ih (fun a ha => h a (List.mem_cons_of_mem x ha))]

theorem stripWs_digits_newline {l : Str} (hall : ∀ c ∈ l, c.isDigit = true)
    (hne : l ≠ []) : stripWs (l ++ ['\n']) = l := by
  obtain ⟨c, rest, rfl⟩ := List.exists_cons_of_ne_nil hne
  have hc : c.isDigit = true := hall c (List.mem_cons_self c rest)
  have h1 : List.dropWhile isPySpace ((c :: rest) ++ ['\n']) = (c :: rest) ++ ['\n'] := by
    rw [List.cons_append, List.dropWhile_cons,
      if_neg (by simp [(isDigit_not_special hc).2.2.2.2])]
  rw [stripWs, h1]
  have h2 : ((c :: rest) ++ ['\n']).reverse = '\n' :: (c :: rest).reverse := by
    simp
  rw [h2, List.dropWhile_cons, if_pos (by decide)]
  rw [dropWhile_all_false (fun x hx => by
    exact (isDigit_not_special (hall x (List.mem_reverse.mp hx))).2.2.2.2)]
  simp

theorem pyInt_natChars (n : Nat) : pyInt (natChars n ++ ['\n']) = some (n : Int) := by
  rw [pyInt]
  rw [stripWs_digits_newline (natChars_all_digit n) (natChars_ne_nil n)]
  obtain ⟨c, rest, he⟩ := List.exists_cons_of_ne_nil (natChars_ne_nil n)
  have hc : c.isDigit = true := natChars_all_digit n c (he ▸ List.mem_cons_self c rest)
  rw [he]
  simp only [pyIntCore, if_neg (isDigit_not_special hc).1,
    if_neg (isDigit_not_special hc).2.1]
  rw [← he, parseUDigits_natChars n]
  rfl

theorem rsplitComma_append {a b : Str} (hb : ',' ∉ b) :
    rsplitComma (a ++ ',' :: b) = some (a, b) := by
  have hmem : ',' ∈ a ++ ',' :: b :=
    List.mem_append_right a (List.mem_cons_self ',' b)
  rw [rsplitComma, if_pos hmem]
  have hrev : (a ++ ',' :: b).reverse = b.reverse ++ ',' :: a.reverse := by
    simp
  rw [hrev]
  have htw : (b.reverse ++ ',' :: a.reverse).takeWhile (fun c => c != ',')
      = b.reverse := by
    apply takeWhile_append_cons
    · intro x hx
      have hne : x ≠ ',' := fun he => hb (List.mem_reverse.mp (he ▸ hx))
      simp [hne]
    · simp
  rw [htw]
  have hdrop : (b.reverse ++ ',' :: a.reverse).drop (b.reverse.length + 1)
      = a.reverse := by
    have he : b.reverse ++ ',' :: a.reverse = (b.reverse ++ [',']) ++ a.reverse := by
      simp
    have hl : b.reverse.length + 1 = (b.reverse ++ [',']).length := by simp
    rw [he, hl, List.drop_left]
  rw [hdrop]
  simp

theorem comma_not_mem_count (c : Nat) : ',' ∉ natChars c ++ ['\n'] := by
  intro h
  rcases List.mem_append.mp h with h1 | h1
  · exact absurd rfl (isDigit_not_special (natChars_all_digit c ',' h1)).2.2.1
  · simp at h1

theorem decodeLine_encodeLine (p : Key) (c : Nat) :
    decodeLine (encodeLine p c) = some (keyText p, (c : Int)) := by
  rw [decodeLine, partitionFn, encodeLine,
    rsplitComma_append (comma_not_mem_count c)]
  simp [pyInt_natChars c]

theorem decodeLine_eq_none_iff (text : Str) :
    decodeLine text = none ↔
      (',' ∉ text ∨ ∃ k v, rsplitComma text = some (k, v) ∧ pyInt v = none) := by
  constructor
  · intro h
    by_cases hm : ',' ∈ text
    · right
      cases hr : rsplitComma text with
      | none =>
        rw [rsplitComma, if_pos hm] at hr
        cases hr
      | some kv =>
        obtain ⟨k, v⟩ := kv
        refine ⟨k, v, rfl, ?_⟩
        rw [decodeLine, partitionFn, hr] at h
        simpa using h
    · exact Or.inl hm
  · intro h
    rcases h with h | ⟨k, v, hr, hv⟩
    · rw [decodeLine, partitionFn, rsplitComma, if_neg h]
      rfl
    · rw [decodeLine, partitionFn, hr]
      simp [hv]

theorem splitFirstSpace_append {d e : Str} (hd : ' ' ∉ d) :
    splitFirstSpace (d ++ ' ' :: e) = some (d, e) := by
  have hmem : ' ' ∈ d ++ ' ' :: e :=
    List.mem_append_right d (List.mem_cons_self ' ' e)
  rw [splitFirstSpace, if_pos hmem]
  have htw : (d ++ ' ' :: e).takeWhile (fun c => c != ' ') = d := by
    apply takeWhile_append_cons
    · intro x hx
      have hne : x ≠ ' ' := fun he => hd (he ▸ hx)
      simp [hne]
    · simp
  rw [htw]
  have hdrop : (d ++ ' ' :: e).drop (d.length + 1) = e := by
    have he : d ++ ' ' :: e = (d ++ [' ']) ++ e := by simp
    have hl : d.length + 1 = (d ++ [' ']).length := by simp
    rw [he, hl, List.drop_left]
  rw [hdrop]

theorem entrySum_nil (p : Key) : entrySum [] p = 0 := rfl

theorem entrySum_cons (a : Key) (b : Nat) (l : List Entry) (p : Key) :
    entrySum ((a, b) :: l) p = (if a = p then b else 0) + entrySum l p := by
  by_cases h : a = p <;> simp [entrySum, h]

theorem chunksSum_nil (p : Key) : chunksSum [] p = 0 := rfl

theorem chunksSum_append (cs : List (List Entry)) (c : List Entry) (p : Key) :
    chunksSum (cs ++ [c]) p = chunksSum cs p + entrySum c p := by
  simp [chunksSum]

theorem bump_entrySum (m : List Entry) (k p : Key) :
    entrySum (bump m k) p = entrySum m p + (if p = k then 1 else 0) := by
  induction m with
  | nil =>
    by_cases h : p = k
    · subst h
      simp [bump, entrySum]
    · have h' : ¬(k = p) := fun he => h he.symm
      simp [bump, entrySum, h', h]
  | cons e rest ih =>
    obtain ⟨k', c⟩ := e
    by_cases h1 : pairLtB k k' = true
    · simp only [bump, if_pos h1]
      rw [entrySum_cons, entrySum_cons]
      by_cases hkp : k = p
      · subst hkp
        simp [eq_comm]
        omega
      · have hpk : ¬(p = k) := fun he => hkp he.symm
        simp [hkp, hpk]
    · by_cases h2 : k = k'
      · subst h2
        simp only [bump, if_neg h1, if_pos rfl, eq_self_iff_true, if_true]
        rw [entrySum_cons, entrySum_cons]
        by_cases hkp : k = p
        · subst hkp
          simp
          omega
        · have hpk : ¬(p = k) := fun he => hkp he.symm
          simp [hkp, hpk]
      · simp only [bump, if_neg h1, if_neg h2]
        rw [entrySum_cons, entrySum_cons, ih]
        omega

theorem keyCount_cons_none (rest : List (Option Key)) (p : Key) :
    keyCount (none :: rest) p = keyCount rest p := by
  simp [keyCount, validKeys]

theorem keyCount_cons_some (k : Key) (rest : List (Option Key)) (p : Key) :
    keyCount (some k :: rest) p = (if p = k then 1 else 0) + keyCount rest p := by
  by_cases h : k = p
  · subst h
    simp [keyCount, validKeys, List.count_cons]
    omega
  · have h' : ¬(p = k) := fun he => h he.symm
    simp [keyCount, validKeys, List.count_cons, h, h']

theorem aggStep_sum (maxK : Int) (st : List Entry × List (List Entry)) (k p : Key) :
    entrySum (aggStep maxK st (some k)).1 p + chunksSum (aggStep maxK st (some k)).2 p
      = entrySum st.1 p + chunksSum st.2 p + (if p = k then 1 else 0) := by
  simp only [aggStep]
  by_cases hsp : maxK ≤ ((bump st.1 k).length : Int)
  · rw [if_pos hsp]
    simp only [entrySum_nil]
    rw [chunksSum_append, bump_entrySum]
    omega
  · rw [if_neg hsp]
    simp only
    rw [bump_entrySum]
    omega

theorem foldl_aggStep_sum (maxK : Int) (p : Key) :
    ∀ (input : List (Option Key)) (st : List Entry × List (List Entry)),
      entrySum (input.foldl (aggStep maxK) st).1 p
          + chunksSum (input.foldl (aggStep maxK) st).2 p
        = entrySum st.1 p + chunksSum st.2 p + keyCount input p := by
  intro input
  induction input with
  | nil =>
    intro st
    simp [keyCount, validKeys]
  | cons r rest ih =>
    intro st
    rw [List.foldl_cons, ih (aggStep maxK st r)]
    cases r with
    | none =>
      have hid : aggStep maxK st none = st := rfl
      rw [keyCount_cons_none, hid]
    | some k =>
      rw [aggStep_sum, keyCount_cons_some]
      omega

/-- Conservation: the union of all spilled chunks assigns every key its
exact total over the valid input, for any max_keys_count whatsoever. -/
theorem aggregate_chunksSum (input : List (Option Key)) (maxK : Int) (p : Key) :
    chunksSum (aggregate input maxK) p = keyCount input p := by
  have h := foldl_aggStep_sum maxK p input ([], [])
  simp only [entrySum_nil, chunksSum_nil] at h
  rw [aggregate]
  by_cases he : (input.foldl (aggStep maxK) ([], [])).1 = []
  · rw [if_pos he]
    rw [he, entrySum_nil] at h
    omega
  · rw [if_neg he, chunksSum_append]
    omega

theorem bump_mem (m : List Entry) (k : Key) :
    ∀ e ∈ bump m k, e.1 = k ∨ e ∈ m := by
  induction m with
  | nil =>
    intro e he
    simp only [bump, List.mem_singleton] at he
    subst he
    exact Or.inl rfl
  | cons a rest ih =>
    obtain ⟨k', c⟩ := a
    intro e he
    by_cases h1 : pairLtB k k' = true
    · simp only [bump, if_pos h1] at he
      rcases List.mem_cons.mp he with he | he
      · subst he
        exact Or.inl rfl
      · exact Or.inr he
    · by_cases h2 : k = k'
      · subst h2
        simp only [bump, if_neg h1, eq_self_iff_true, if_true] at he
        rcases List.mem_cons.mp he with he | he
        · subst he
          exact Or.inl rfl
        · exact Or.inr (List.mem_cons_of_mem _ he)
      · simp only [bump, if_neg h1, if_neg h2] at he
        rcases List.mem_cons.mp he with he | he
        · subst he
          exact Or.inr (List.mem_cons_self _ _)
        · rcases ih e he with h' | h'
          · exact Or.inl h'
          · exact Or.inr (List.mem_cons_of_mem _ h')

theorem bump_sorted (k : Key) :
    ∀ {m : List Entry}, sortedEntries m → sortedEntries (bump m k) := by
  intro m
  induction m with
  | nil =>
    intro _
    simp [bump, sortedEntries]
  | cons a rest ih =>
    obtain ⟨k', c⟩ := a
    intro hs
    have hhead : ∀ e ∈ rest, pairLtB k' e.1 = true :=
      (List.pairwise_cons.mp hs).1
    have htail : sortedEntries rest := (List.pairwise_cons.mp hs).2
    by_cases h1 : pairLtB k k' = true
    · simp only [bump, if_pos h1]
      rw [sortedEntries, List.pairwise_cons]
      refine ⟨?_, hs⟩
      intro e he
      rcases List.mem_cons.mp he with he | he
      · rw [he]
        exact h1
      · exact pairLtB_trans h1 (hhead e he)
    · by_cases h2 : k = k'
      · subst h2
        simp only [bump, if_neg h1, eq_self_iff_true, if_true]
        rw [sortedEntries, List.pairwise_cons]
        exact ⟨hhead, htail⟩
      · have hk'k : pairLtB k' k = true := by
          apply pairLtB_of_ne
          · cases hb : pairLtB k k' with
            | false => rfl
            | true => exact absurd hb h1
          · exact h2
        simp only [bump, if_neg h1, if_neg h2]
        rw [sortedEntries, List.pairwise_cons]
        constructor
        · intro e he
          rcases bump_mem rest k e he with h' | h'
          · rw [h']
            exact hk'k
          · exact hhead e h'
        · exact ih htail

theorem foldl_aggStep_sorted (maxK : Int) :
    ∀ (input : List (Option Key)) (st : List Entry × List (List Entry)),
      sortedEntries st.1 → (∀ c ∈ st.2, sortedEntries c) →
      sortedEntries (input.foldl (aggStep maxK) st).1
        ∧ ∀ c ∈ (input.foldl (aggStep maxK) st).2, sortedEntries c := by
  intro input
  induction input with
  | nil =>
    intro st h1 h2
    exact ⟨h1, h2⟩
  | cons r rest ih =>
    intro st h1 h2
    rw [List.foldl_cons]
    apply ih
    · cases r with
      | none => exact h1
      | some k =>
        simp only [aggStep]
        by_cases hsp : maxK ≤ ((bump st.1 k).length : Int)
        · rw [if_pos hsp]
          simp [sortedEntries]
        · rw [if_neg hsp]
          exact bump_sorted k h1
    · cases r with
      | none => exact h2
      | some k =>
        simp only [aggStep]
        by_cases hsp : maxK ≤ ((bump st.1 k).length : Int)
        · rw [if_pos hsp]
          intro c hc
          rcases List.mem_append.mp hc with hc | hc
          · exact h2 c hc
          · rw [List.mem_singleton] at hc
            subst hc
            exact bump_sorted k h1
        · rw [if_neg hsp]
          exact h2

theorem aggregate_sorted (input : List (Option Key)) (maxK : Int) :
    ∀ chunk ∈ aggregate input maxK, sortedEntries chunk := by
  intro chunk hc
  obtain ⟨hm, hcs⟩ := foldl_aggStep_sorted maxK input ([], [])
    (by simp [sortedEntries]) (by simp)
  rw [aggregate] at hc
  by_cases he : (input.foldl (aggStep maxK) ([], [])).1 = []
  · rw [if_pos he] at hc
    exact hcs chunk hc
  · rw [if_neg he] at hc
    rcases List.mem_append.mp hc with hc | hc
    · exact hcs chunk hc
    · rw [List.mem_singleton] at hc
      subst hc
      exact hm

theorem bump_length_le (m : List Entry) (k : Key) :
    (bump m k).length ≤ m.length + 1 := by
  induction m with
  | nil => simp [bump]
  | cons a rest ih =>
    obtain ⟨k', c⟩ := a
    by_cases h1 : pairLtB k k' = true
    · simp [bump, h1]
    · by_cases h2 : k = k'
      · subst h2
        simp [bump, h1]
      · simp only [bump, if_neg h1, if_neg h2, List.length_cons]
        omega

theorem foldl_aggStep_size (maxK : Int) (hpos : 1 ≤ maxK) :
    ∀ (input : List (Option Key)) (st : List Entry × List (List Entry)),
      ((st.1.length : Int) < maxK) →
      (((input.foldl (aggStep maxK) st).1.length : Int) < maxK) := by
  intro input
  induction input with
  | nil =>
    intro st h
    exact h
  | cons r rest ih =>
    intro st h
    rw [List.foldl_cons]
    apply ih
    cases r with
    | none => exact h
    | some k =>
      simp only [aggStep]
      by_cases hsp : maxK ≤ ((bump st.1 k).length : Int)
      · rw [if_pos hsp]
        simp only [List.length_nil, Nat.cast_zero]
        omega
      · rw [if_neg hsp]
        show ((bump st.1 k).length : Int) < maxK
        omega

theorem aggState_lt (maxK : Int) (hpos : 1 ≤ maxK) (input : List (Option Key))
    (i : Nat) : ((aggState input maxK i).length : Int) < maxK := by
  apply foldl_aggStep_size maxK hpos (input.take i) ([], [])
  simp
  omega

theorem foldl_aggStep_le_one (maxK : Int) (h : maxK ≤ 1) :
    ∀ (input : List (Option Key)) (cs : List (List Entry)),
      input.foldl (aggStep maxK) ([], cs)
        = ([], cs ++ (validKeys input).map (fun k => [(k, 1)])) := by
  intro input
  induction input with
  | nil =>
    intro cs
    simp [validKeys]
  | cons r rest ih =>
    intro cs
    cases r with
    | none =>
      rw [List.foldl_cons]
      have hid : aggStep maxK ([], cs) none = ([], cs) := rfl
      rw [hid, ih cs]
      simp [validKeys]
    | some k =>
      rw [List.foldl_cons]
      have hstep : aggStep maxK ([], cs) (some k) = ([], cs ++ [[(k, 1)]]) := by
        simp only [aggStep]
        rw [if_pos (by simp [bump]; omega)]
        simp [bump]
      rw [hstep, ih (cs ++ [[(k, 1)]])]
      simp [validKeys]

theorem aggregate_le_one (input : List (Option Key)) (maxK : Int) (h : maxK ≤ 1) :
    aggregate input maxK = (validKeys input).map (fun k => [(k, 1)]) := by
  rw [aggregate, foldl_aggStep_le_one maxK h input []]
  simp

theorem aggStep_keys (maxK : Int) (st : List Entry × List (List Entry))
    (k p : Key) :
    ((∃ e ∈ (aggStep maxK st (some k)).1, e.1 = p)
      ∨ ∃ c ∈ (aggStep maxK st (some k)).2, ∃ e ∈ c, e.1 = p) →
    (∃ e ∈ st.1, e.1 = p) ∨ (∃ c ∈ st.2, ∃ e ∈ c, e.1 = p) ∨ p = k := by
  intro hh
  simp only [aggStep] at hh
  by_cases hsp : maxK ≤ ((bump st.1 k).length : Int)
  · rw [if_pos hsp] at hh
    rcases hh with ⟨e, he, _⟩ | ⟨c, hc, e, he, hep⟩
    · simp at he
    · rcases List.mem_append.mp hc with hc | hc
      · exact Or.inr (Or.inl ⟨c, hc, e, he, hep⟩)
      · rw [List.mem_singleton] at hc
        subst hc
        rcases bump_mem st.1 k e he with h' | h'
        · exact Or.inr (Or.inr (hep.symm.trans h'))
        · exact Or.inl ⟨e, h', hep⟩
  · rw [if_neg hsp] at hh
    rcases hh with ⟨e, he, hep⟩ | ⟨c, hc, e, he, hep⟩
    · rcases bump_mem st.1 k e he with h' | h'
      · exact Or.inr (Or.inr (hep.symm.trans h'))
      · exact Or.inl ⟨e, h', hep⟩
    · exact Or.inr (Or.inl ⟨c, hc, e, he, hep⟩)

theorem foldl_aggStep_keys (maxK : Int) :
    ∀ (input : List (Option Key)) (st : List Entry × List (List Entry)) (p : Key),
      ((∃ e ∈ (input.foldl (aggStep maxK) st).1, e.1 = p)
        ∨ ∃ c ∈ (input.foldl (aggStep maxK) st).2, ∃ e ∈ c, e.1 = p) →
      ((∃ e ∈ st.1, e.1 = p) ∨ (∃ c ∈ st.2, ∃ e ∈ c, e.1 = p)
        ∨ p ∈ validKeys input) := by
  intro input
  induction input with
  | nil =>
    intro st p h
    rcases h with h | h
    · exact Or.inl h
    · exact Or.inr (Or.inl h)
  | cons r rest ih =>
    intro st p h
    rw [List.foldl_cons] at h
    have hrec := ih (aggStep maxK st r) p h
    cases r with
    | none =>
      rcases hrec with h1 | h1 | h1
      · exact Or.inl h1
      · exact Or.inr (Or.inl h1)
      · refine Or.inr (Or.inr ?_)
        have hv : validKeys (none :: rest) = validKeys rest := by
          simp [validKeys]
        rw [hv]
        exact h1
    | some k =>
      have hmem : p = k ∨ p ∈ validKeys rest → p ∈ validKeys (some k :: rest) := by
        intro hp
        simp only [validKeys, List.filterMap_cons]
        rcases hp with hp | hp
        · exact hp ▸ List.mem_cons_self _ _
        · exact List.mem_cons_of_mem _ hp
      rcases hrec with h1 | h1 | h1
      · rcases aggStep_keys maxK st k p (Or.inl h1) with h2 | h2 | h2
        · exact Or.inl h2
        · exact Or.inr (Or.inl h2)
        · exact Or.inr (Or.inr (hmem (Or.inl h2)))
      · rcases aggStep_keys maxK st k p (Or.inr h1) with h2 | h2 | h2
        · exact Or.inl h2
        · exact Or.inr (Or.inl h2)
        · exact Or.inr (Or.inr (hmem (Or.inl h2)))
      · exact Or.inr (Or.inr (hmem (Or.inr h1)))

theorem aggregate_keys (input : List (Option Key)) (maxK : Int) :
    ∀ chunk ∈ aggregate input maxK, ∀ e ∈ chunk, e.1 ∈ validKeys input := by
  intro chunk hc e he
  have hfold := foldl_aggStep_keys maxK input ([], []) e.1
  rw [aggregate] at hc
  by_cases hemp : (input.foldl (aggStep maxK) ([], [])).1 = []
  · rw [if_pos hemp] at hc
    rcases hfold (Or.inr ⟨chunk, hc, e, he, rfl⟩) with h1 | h1 | h1
    · obtain ⟨_, hx, _⟩ := h1
      simp at hx
    · obtain ⟨_, hx, _⟩ := h1
      simp at hx
    · exact h1
  · rw [if_neg hemp] at hc
    rcases List.mem_append.mp hc with hc | hc
    · rcases hfold (Or.inr ⟨chunk, hc, e, he, rfl⟩) with h1 | h1 | h1
      · obtain ⟨_, hx, _⟩ := h1
        simp at hx
      · obtain ⟨_, hx, _⟩ := h1
        simp at hx
      · exact h1
    · rw [List.mem_singleton] at hc
      subst hc
      rcases hfold (Or.inl ⟨e, he, rfl⟩) with h1 | h1 | h1
      · obtain ⟨_, hx, _⟩ := h1
        simp at hx
      · obtain ⟨_, hx, _⟩ := h1
        simp at hx
      · exact h1

theorem foldl_aggStep_skip (maxK : Int) :
    ∀ (input : List (Option Key)) (st : List Entry × List (List Entry)),
      input.foldl (aggStep maxK) st
        = ((validKeys input).map some).foldl (aggStep maxK) st := by
  intro input
  induction input with
  | nil =>
    intro st
    rfl
  | cons r rest ih =>
    intro st
    cases r with
    | none =>
      rw [List.foldl_cons]
      have hid : aggStep maxK st none = st := rfl
      rw [hid, ih st]
      rfl
    | some k =>
      rw [List.foldl_cons]
      have hv : validKeys (some k :: rest) = k :: validKeys rest := by
        simp [validKeys]
      rw [hv, List.map_cons, List.foldl_cons]
      exact ih (aggStep maxK st (some k))

/-- Skipping invalid records is the same as running on the valid subsequence. -/
theorem aggregate_skip (input : List (Option Key)) (maxK : Int) :
    aggregate input maxK = aggregate ((validKeys input).map some) maxK := by
  rw [aggregate, aggregate, ← foldl_aggStep_skip maxK input ([], [])]

theorem pickHead_none : ∀ {ls : List (List Row)}, pickHead ls = none →
    ∀ l ∈ ls, l = [] := by
  intro ls
  induction ls with
  | nil =>
    intro _ l hl
    simp at hl
  | cons l0 rest ih =>
    intro h l hl
    cases l0 with
    | nil =>
      simp only [pickHead] at h
      have hr : pickHead rest = none := by
        cases hh : pickHead rest with
        | none => rfl
        | some x =>
          rw [hh] at h
          simp at h
      rcases List.mem_cons.mp hl with rfl | hl
      · rfl
      · exact ih hr l hl
    | cons r t =>
      simp only [pickHead] at h
      cases hh : pickHead rest with
      | none =>
        rw [hh] at h
        simp [pickBetter] at h
      | some js =>
        rw [hh] at h
        simp only [pickBetter] at h
        by_cases hlt : rowLtB js.2 r = true
        · rw [if_pos hlt] at h
          simp at h
        · rw [if_neg hlt] at h
          simp at h

theorem flatten_nil_of_pickHead_none {ls : List (List Row)}
    (h : pickHead ls = none) : ls.flatten = [] :=
  List.flatten_eq_nil_iff.mpr (pickHead_none h)

theorem pickHead_perm : ∀ {ls : List (List Row)} {i : Nat} {r : Row},
    pickHead ls = some (i, r) →
    ls.flatten.Perm (r :: (dropHeadAt ls i).flatten) := by
  intro ls
  induction ls with
  | nil =>
    intro i r h
    cases h
  | cons l0 rest ih =>
    intro i r h
    cases l0 with
    | nil =>
      simp only [pickHead] at h
      cases hh : pickHead rest with
      | none =>
        rw [hh] at h
        cases h
      | some jr =>
        obtain ⟨j, s⟩ := jr
        rw [hh] at h
        simp only [Option.map_some', Option.some.injEq, Prod.mk.injEq] at h
        obtain ⟨hi, hr⟩ := h
        subst hr
        rw [← hi]
        have hp := ih hh
        simpa [dropHeadAt] using hp
    | cons r0 t =>
      simp only [pickHead] at h
      cases hh : pickHead rest with
      | none =>
        rw [hh] at h
        simp only [pickBetter, Option.some.injEq, Prod.mk.injEq] at h
        obtain ⟨hi, hr⟩ := h
        subst hr
        rw [← hi]
        simp [dropHeadAt]
      | some jr =>
        obtain ⟨j, s⟩ := jr
        rw [hh] at h
        simp only [pickBetter] at h
        by_cases hlt : rowLtB s r0 = true
        · rw [if_pos hlt] at h
          simp only [Option.some.injEq, Prod.mk.injEq] at h
          obtain ⟨hi, hr⟩ := h
          subst hr
          rw [← hi]
          have hp := ih hh
          simp only [dropHeadAt, List.flatten_cons]
          exact (List.Perm.append_left (r0 :: t) hp).trans List.perm_middle
        · rw [if_neg hlt] at h
          simp only [Option.some.injEq, Prod.mk.injEq] at h
          obtain ⟨hi, hr⟩ := h
          subst hr
          rw [← hi]
          simp [dropHeadAt]

theorem chainLe_head : ∀ {l : List Row} {a : Row},
    chunkSortedLe (a :: l) → ∀ x ∈ l, rowLtB x a = false := by
  intro l
  induction l with
  | nil =>
    intro a _ x hx
    simp at hx
  | cons b l ih =>
    intro a hc x hx
    have hba : rowLtB b a = false := (List.chain'_cons.mp hc).1
    have htail : chunkSortedLe (b :: l) := (List.chain'_cons.mp hc).2
    rcases List.mem_cons.mp hx with rfl | hx
    · exact hba
    · exact rowLtB_not_lt_trans hba (ih htail x hx)

theorem pickHead_min : ∀ {ls : List (List Row)} {i : Nat} {r : Row},
    (∀ l ∈ ls, chunkSortedLe l) → pickHead ls = some (i, r) →
    ∀ x ∈ ls.flatten, rowLtB x r = false := by
  intro ls
  induction ls with
  | nil =>
    intro i r _ h
    cases h
  | cons l0 rest ih =>
    intro i r hall h x hx
    cases l0 with
    | nil =>
      simp only [pickHead] at h
      cases hh : pickHead rest with
      | none =>
        rw [hh] at h
        cases h
      | some jr =>
        obtain ⟨j, s⟩ := jr
        rw [hh] at h
        simp only [Option.map_some', Option.some.injEq, Prod.mk.injEq] at h
        obtain ⟨hi, hr⟩ := h
        subst hr
        have hx' : x ∈ rest.flatten := by simpa using hx
        exact ih (fun l hl => hall l (List.mem_cons_of_mem _ hl)) hh x hx'
    | cons r0 t =>
      have hchunk : chunkSortedLe (r0 :: t) := hall _ (List.mem_cons_self _ _)
      have hrest : ∀ l ∈ rest, chunkSortedLe l :=
        fun l hl => hall l (List.mem_cons_of_mem _ hl)
      simp only [pickHead] at h
      simp only [List.flatten_cons, List.mem_append, List.mem_cons] at hx
      cases hh : pickHead rest with
      | none =>
        rw [hh] at h
        simp only [pickBetter, Option.some.injEq, Prod.mk.injEq] at h
        obtain ⟨hi, hr⟩ := h
        rw [← hr]
        rcases hx with (hx0 | hx) | hx
        · rw [hx0]
          exact rowLtB_irrefl r0
        · exact chainLe_head hchunk x hx
        · rw [flatten_nil_of_pickHead_none hh] at hx
          simp at hx
      | some jr =>
        obtain ⟨j, s⟩ := jr
        rw [hh] at h
        simp only [pickBetter] at h
        by_cases hlt : rowLtB s r0 = true
        · rw [if_pos hlt] at h
          simp only [Option.some.injEq, Prod.mk.injEq] at h
          obtain ⟨hi, hr⟩ := h
          rw [← hr]
          have hr0 : rowLtB r0 s = false := rowLtB_asymm hlt
          rcases hx with (hx0 | hx) | hx
          · rw [hx0]
            exact hr0
          · exact rowLtB_not_lt_trans hr0 (chainLe_head hchunk x hx)
          · exact ih hrest hh x hx
        · rw [if_neg hlt] at h
          simp only [Option.some.injEq, Prod.mk.injEq] at h
          obtain ⟨hi, hr⟩ := h
          rw [← hr]
          have hlt' : rowLtB s r0 = false := by
            cases hb : rowLtB s r0 with
            | false => rfl
            | true => exact absurd hb hlt
          rcases hx with (hx0 | hx) | hx
          · rw [hx0]
            exact rowLtB_irrefl r0
          · exact chainLe_head hchunk x hx
          · exact rowLtB_not_lt_trans hlt' (ih hrest hh x hx)

theorem totalLen_eq_flatten_length (ls : List (List Row)) :
    totalLen ls = ls.flatten.length :=
  (List.length_flatten ls).symm

theorem dropHeadAt_totalLen {ls : List (List Row)} {i : Nat} {r : Row}
    (h : pickHead ls = some (i, r)) :
    totalLen ls = totalLen (dropHeadAt ls i) + 1 := by
  have hp := pickHead_perm h
  have hl := hp.length_eq
  rw [totalLen_eq_flatten_length, totalLen_eq_flatten_length, hl]
  simp

theorem mergeRows_perm : ∀ (fuel : Nat) (ls : List (List Row)),
    totalLen ls ≤ fuel → (mergeRows fuel ls).Perm ls.flatten := by
  intro fuel
  induction fuel with
  | zero =>
    intro ls h
    have h0 : ls.flatten.length = 0 := by
      rw [← totalLen_eq_flatten_length]
      omega
    have he : ls.flatten = [] := List.length_eq_zero.mp h0
    simp [mergeRows, he]
  | succ fuel ih =>
    intro ls h
    cases hp : pickHead ls with
    | none =>
      have he : ls.flatten = [] := flatten_nil_of_pickHead_none hp
      simp [mergeRows, hp, he]
    | some ir =>
      obtain ⟨i, r⟩ := ir
      have hperm := pickHead_perm hp
      have hlen := dropHeadAt_totalLen hp
      have hrec := ih (dropHeadAt ls i) (by omega)
      have heq : mergeRows (fuel + 1) ls = r :: mergeRows fuel (dropHeadAt ls i) := by
        simp [mergeRows, hp]
      rw [heq]
      exact (hrec.cons r).trans hperm.symm

theorem dropHeadAt_chunkSorted : ∀ (ls : List (List Row)) (i : Nat),
    (∀ l ∈ ls, chunkSortedLe l) → ∀ l ∈ dropHeadAt ls i, chunkSortedLe l := by
  intro ls
  induction ls with
  | nil =>
    intro i _ l hl
    simp [dropHeadAt] at hl
  | cons l0 rest ih =>
    intro i hall l hl
    cases i with
    | zero =>
      simp only [dropHeadAt] at hl
      rcases List.mem_cons.mp hl with hl0 | hl
      · rw [hl0]
        exact List.Chain'.tail (hall l0 (List.mem_cons_self _ _))
      · exact hall l (List.mem_cons_of_mem _ hl)
    | succ i =>
      simp only [dropHeadAt] at hl
      rcases List.mem_cons.mp hl with hl0 | hl
      · rw [hl0]
        exact hall l0 (List.mem_cons_self _ _)
      · exact ih i (fun x hx => hall x (List.mem_cons_of_mem _ hx)) l hl

theorem mergeRows_sorted : ∀ (fuel : Nat) (ls : List (List Row)),
    (∀ l ∈ ls, chunkSortedLe l) → totalLen ls ≤ fuel →
    chunkSortedLe (mergeRows fuel ls) := by
  intro fuel
  induction fuel with
  | zero =>
    intro ls _ _
    simp [mergeRows, chunkSortedLe]
  | succ fuel ih =>
    intro ls hall h
    cases hp : pickHead ls with
    | none =>
      simp [mergeRows, hp, chunkSortedLe]
    | some ir =>
      obtain ⟨i, r⟩ := ir
      have heq : mergeRows (fuel + 1) ls = r :: mergeRows fuel (dropHeadAt ls i) := by
        simp [mergeRows, hp]
      rw [heq]
      have hdrop := dropHeadAt_chunkSorted ls i hall
      have hlen := dropHeadAt_totalLen hp
      have hrec := ih (dropHeadAt ls i) hdrop (by omega)
      apply List.Chain'.cons' hrec
      intro y hy
      have hym : y ∈ mergeRows fuel (dropHeadAt ls i) := List.mem_of_mem_head? hy
      have hperm := mergeRows_perm fuel (dropHeadAt ls i) (by omega)
      have hyflat : y ∈ (dropHeadAt ls i).flatten := hperm.mem_iff.mp hym
      have hyls : y ∈ ls.flatten :=
        (pickHead_perm hp).mem_iff.mpr (List.mem_cons_of_mem _ hyflat)
      exact pickHead_min hall hp y hyls

theorem rowSum_nil (t : Str) : rowSum [] t = 0 := rfl

theorem rowSum_cons (k : Str) (v : Int) (l : List Row) (t : Str) :
    rowSum ((k, v) :: l) t = (if k = t then v else 0) + rowSum l t := by
  by_cases h : k = t <;> simp [rowSum, h]

theorem rowSum_perm {l₁ l₂ : List Row} (hp : l₁.Perm l₂) (t : Str) :
    rowSum l₁ t = rowSum l₂ t :=
  ((hp.filter _).map _).sum_eq

theorem rowSum_append (a b : List Row) (t : Str) :
    rowSum (a ++ b) t = rowSum a t + rowSum b t := by
  simp [rowSum]

theorem rowSum_flatten (ls : List (List Row)) (t : Str) :
    rowSum ls.flatten t = (ls.map (fun c => rowSum c t)).sum := by
  induction ls with
  | nil => rfl
  | cons c rest ih =>
    rw [List.flatten_cons, rowSum_append, ih, List.map_cons, List.sum_cons]

theorem coalesce_rowSum : ∀ (rows : List Row) (pr : Option Row) (t : Str),
    (∀ r ∈ rows, r.1 ≠ []) →
    (pr = none ∨ ∃ q, pr = some q ∧ q.1 ≠ []) →
    rowSum (coalesce pr rows) t = rowSum rows t + pendSum pr t := by
  intro rows
  induction rows with
  | nil =>
    intro pr t _ hpr
    rcases hpr with hn | ⟨q, hq, hq1⟩
    · rw [hn]
      simp [coalesce, rowSum, pendSum]
    · rw [hq]
      obtain ⟨qk, qv⟩ := q
      simp only [coalesce, if_neg hq1, pendSum]
      rw [rowSum_cons, rowSum_nil]
      omega
  | cons r rest ih =>
    intro pr t hall hpr
    obtain ⟨rk, rv⟩ := r
    have hr1 : rk ≠ [] := hall (rk, rv) (List.mem_cons_self _ _)
    have hall' : ∀ x ∈ rest, x.1 ≠ [] :=
      fun x hx => hall x (List.mem_cons_of_mem _ hx)
    rcases hpr with hn | ⟨q, hq, hq1⟩
    · rw [hn]
      have heq : coalesce none ((rk, rv) :: rest) = coalesce (some (rk, rv)) rest :=
        rfl
      rw [heq, ih (some (rk, rv)) t hall' (Or.inr ⟨(rk, rv), rfl, hr1⟩)]
      rw [rowSum_cons]
      simp only [pendSum]
      omega
    · rw [hq]
      obtain ⟨qk, qv⟩ := q
      simp only [coalesce, if_neg hq1]
      by_cases he : rk = qk
      · rw [if_pos he]
        rw [ih (some (qk, qv + rv)) t hall' (Or.inr ⟨(qk, qv + rv), rfl, hq1⟩)]
        rw [rowSum_cons]
        simp only [pendSum]
        rw [he]
        by_cases ht : qk = t
        · simp only [if_pos ht]
          omega
        · simp only [if_neg ht]
          omega
      · rw [if_neg he]
        rw [rowSum_cons, ih (some (rk, rv)) t hall' (Or.inr ⟨(rk, rv), rfl, hr1⟩),
          rowSum_cons]
        simp only [pendSum]
        omega

theorem strLtB_nil_right : ∀ s : Str, strLtB s [] = false := by
  intro s
  cases s <;> rfl

theorem strChainLe_head : ∀ {l : List Str} {a : Str},
    (a :: l).Chain' (fun u v => strLtB v u = false) →
    ∀ x ∈ l, strLtB x a = false := by
  intro l
  induction l with
  | nil =>
    intro a _ x hx
    simp at hx
  | cons b l ih =>
    intro a hc x hx
    have hba : strLtB b a = false := (List.chain'_cons.mp hc).1
    have htail := (List.chain'_cons.mp hc).2
    rcases List.mem_cons.mp hx with hx0 | hx
    · rw [hx0]
      exact hba
    · exact strLtB_not_lt_trans hba (ih htail x hx)

theorem keyLt_to_rowGe {a b : Row} (hab : strLtB a.1 b.1 = true) :
    rowLtB b a = false := by
  cases hr : rowLtB b a with
  | false => rfl
  | true =>
    rcases rowLtB_iff.mp hr with h1 | h1
    · exact absurd h1 (bool_ne_true (strLtB_asymm hab))
    · exact absurd h1.1.symm (strLtB_ne hab)

/-- A chunk whose decoded key texts strictly increase is sorted under the
full (key text, count) merge order. -/
theorem keyStrict_to_chunkSorted {l : List Row}
    (h : (l.map (fun r => r.1)).Chain' (fun u v => strLtB u v = true)) :
    chunkSortedLe l := by
  have h' := (List.chain'_map _).mp h
  exact h'.imp (fun _ _ hab => keyLt_to_rowGe hab)

/-- A stream sorted under the merge order has non-decreasing key texts. -/
theorem rowChain_to_keyChain {l : List Row} (h : chunkSortedLe l) :
    (l.map (fun r => r.1)).Chain' (fun u v => strLtB v u = false) := by
  apply (List.chain'_map _).mpr
  exact h.imp (fun _ _ hab => rowLtB_false_key hab)

theorem coalesce_sorted : ∀ (rows : List Row) (pk : Str) (ps : Int),
    (rows.map (fun r => r.1)).Chain' (fun u v => strLtB v u = false) →
    (∀ r ∈ rows, strLtB r.1 pk = false) →
    ((coalesce (some (pk, ps)) rows).map (fun r => r.1)).Chain'
        (fun u v => strLtB u v = true)
      ∧ ∀ x ∈ coalesce (some (pk, ps)) rows, strLtB x.1 pk = false := by
  intro rows
  induction rows with
  | nil =>
    intro pk ps _ _
    by_cases hpk : pk = []
    · simp [coalesce, hpk]
    · simp only [coalesce, if_neg hpk]
      refine ⟨by simp, ?_⟩
      intro x hx
      rw [List.mem_singleton] at hx
      rw [hx]
      exact strLtB_irrefl pk
  | cons r rest ih =>
    intro pk ps hchain hge
    obtain ⟨rk, rv⟩ := r
    rw [List.map_cons] at hchain
    have hge_r : strLtB rk pk = false := hge (rk, rv) (List.mem_cons_self _ _)
    have htail := hchain.tail
    have hrest_ge_rk : ∀ x ∈ rest, strLtB x.1 rk = false := by
      intro x hx
      exact strChainLe_head hchain x.1 (List.mem_map_of_mem _ hx)
    by_cases hpk : pk = []
    · simp only [coalesce, if_pos hpk]
      obtain ⟨hc, _⟩ := ih rk rv htail hrest_ge_rk
      refine ⟨hc, ?_⟩
      intro x _
      rw [hpk]
      exact strLtB_nil_right x.1
    · by_cases he : rk = pk
      · simp only [coalesce, if_neg hpk, if_pos he]
        have hge' : ∀ x ∈ rest, strLtB x.1 pk = false := by
          intro x hx
          rw [← he]
          exact hrest_ge_rk x hx
        exact ih pk (ps + rv) htail hge'
      · simp only [coalesce, if_neg hpk, if_neg he]
        obtain ⟨hc, hm⟩ := ih rk rv htail hrest_ge_rk
        have hpk_lt : strLtB pk rk = true := strLtB_of_ne hge_r he
        constructor
        · rw [List.map_cons]
          apply List.Chain'.cons' hc
          intro y hy
          have hym := List.mem_of_mem_head? hy
          obtain ⟨x, hx, hxy⟩ := List.mem_map.mp hym
          rw [← hxy]
          exact strLtB_trans_of_not_lt hpk_lt (hm x hx)
        · intro x hx
          rcases List.mem_cons.mp hx with hx0 | hx
          · rw [hx0]
            exact strLtB_irrefl pk
          · exact strLtB_not_lt_trans hge_r (hm x hx)

theorem coalesce_sorted_none (rows : List Row)
    (hchain : (rows.map (fun r => r.1)).Chain' (fun u v => strLtB v u = false)) :
    ((coalesce none rows).map (fun r => r.1)).Chain'
      (fun u v => strLtB u v = true) := by
  cases rows with
  | nil => simp [coalesce]
  | cons r rest =>
    obtain ⟨rk, rv⟩ := r
    have heq : coalesce none ((rk, rv) :: rest) = coalesce (some (rk, rv)) rest :=
      rfl
    rw [heq]
    rw [List.map_cons] at hchain
    refine (coalesce_sorted rest rk rv hchain.tail ?_).1
    intro x hx
    exact strChainLe_head hchain x.1 (List.mem_map_of_mem _ hx)

theorem filterMap_decode_encode (chunk : List Entry) :
    List.filterMap decodeLine (chunkLines chunk)
      = chunk.map (fun e => (keyText e.1, (e.2 : Int))) := by
  induction chunk with
  | nil => rfl
  | cons e rest ih =>
    obtain ⟨p, c⟩ := e
    simp only [chunkLines, List.map_cons, List.filterMap_cons,
      decodeLine_encodeLine]
    rw [← chunkLines]
    rw [ih]

theorem countEvents_some_of_decode {chunks : List (List Str)}
    (h : ∀ c ∈ chunks, ∀ l ∈ c, (decodeLine l).isSome = true) :
    countEvents chunks = some (coalesce none
      (mergeRows (totalLen (decodeChunks chunks)) (decodeChunks chunks))) := by
  rw [countEvents, if_pos]
  rw [List.all_eq_true]
  intro c hc
  rw [List.all_eq_true]
  intro l hl
  exact h c hc l hl

theorem countEvents_none_of_malformed {chunks : List (List Str)}
    (h : ∃ l ∈ chunks.flatten, decodeLine l = none) :
    countEvents chunks = none := by
  obtain ⟨l, hl, hnone⟩ := h
  obtain ⟨c, hc, hlc⟩ := List.mem_flatten.mp hl
  rw [countEvents, if_neg]
  intro hall
  rw [List.all_eq_true] at hall
  have h1 := hall c hc
  rw [List.all_eq_true] at h1
  have h2 := h1 l hlc
  rw [hnone] at h2
  simp at h2

theorem countEvents_none_iff (chunks : List (List Str)) :
    countEvents chunks = none ↔ ∃ l ∈ chunks.flatten, decodeLine l = none := by
  constructor
  · intro h
    by_contra hno
    push_neg at hno
    have hall : ∀ c ∈ chunks, ∀ l ∈ c, (decodeLine l).isSome = true := by
      intro c hc l hl
      have := hno l (List.mem_flatten.mpr ⟨c, hc, hl⟩)
      exact Option.ne_none_iff_isSome.mp this
    rw [countEvents_some_of_decode hall] at h
    cases h
  · exact countEvents_none_of_malformed

/-! ### Key texts under the equal-length-dates hypothesis -/

theorem keyText_ne_nil (p : Key) : keyText p ≠ [] := by
  rw [keyText]
  cases h : p.1 with
  | nil => simp
  | cons c t => simp

theorem keyText_lt {p q : Key} (hlen : p.1.length = q.1.length)
    (h : pairLtB p q = true) : strLtB (keyText p) (keyText q) = true := by
  rcases pairLtB_iff.mp h with h1 | ⟨heq, h2⟩
  · exact strLtB_append_eqlen hlen h1 _ _
  · rw [keyText, keyText, heq, strLtB_append_same q.1 (' ' :: p.2) (' ' :: q.2),
      strLtB_cons_self]
    exact h2

theorem keyText_inj {p q : Key} (hlen : p.1.length = q.1.length)
    (h : keyText p = keyText q) : p = q := by
  rw [keyText, keyText] at h
  obtain ⟨h1, h2⟩ := List.append_inj h hlen
  have h3 : p.2 = q.2 := by injection h2
  exact Prod.ext h1 h3

theorem filterMap_decode_chunkLines (chunk : List Entry) :
    List.filterMap decodeLine (chunkLines chunk) = rowsOf chunk :=
  filterMap_decode_encode chunk

theorem decodeChunks_encoded (chunks : List (List Entry)) :
    decodeChunks (chunks.map chunkLines) = chunks.map rowsOf := by
  rw [decodeChunks, List.map_map]
  apply List.map_congr_left
  intro chunk _
  exact filterMap_decode_chunkLines chunk

theorem chunk_rows_strict {input : List (Option Key)} {maxK : Int}
    (hd : datesEqLen input) :
    ∀ chunk ∈ aggregate input maxK,
      ((rowsOf chunk).map (fun r => r.1)).Chain' (fun u v => strLtB u v = true) := by
  intro chunk hc
  have hsorted := aggregate_sorted input maxK chunk hc
  have hkeys := aggregate_keys input maxK chunk hc
  have hpw : chunk.Pairwise
      (fun a b => strLtB (keyText a.1) (keyText b.1) = true) := by
    apply List.Pairwise.imp_of_mem ?_ hsorted
    intro a b ha hb hr
    exact keyText_lt (hd a.1 (hkeys a ha) b.1 (hkeys b hb)) hr
  rw [rowsOf, List.map_map]
  exact (List.chain'_map _).mpr hpw.chain'

theorem rowSum_rowsOf (l : List Entry) (p : Key)
    (hinj : ∀ e ∈ l, keyText e.1 = keyText p → e.1 = p) :
    rowSum (rowsOf l) (keyText p) = (entrySum l p : Int) := by
  induction l with
  | nil => rfl
  | cons e rest ih =>
    obtain ⟨q, c⟩ := e
    rw [rowsOf, List.map_cons, ← rowsOf, rowSum_cons, entrySum_cons,
      ih (fun x hx hkx => hinj x (List.mem_cons_of_mem _ hx) hkx)]
    by_cases he : q = p
    · rw [he, if_pos rfl, if_pos rfl]
      push_cast
      ring
    · have hkne : keyText q ≠ keyText p :=
        fun hk => he (hinj (q, c) (List.mem_cons_self _ _) hk)
      rw [if_neg hkne, if_neg he]
      push_cast
      ring

theorem coalesce_keys : ∀ (rows : List Row) (pr : Option Row),
    ∀ x ∈ coalesce pr rows,
      (∃ r ∈ rows, x.1 = r.1) ∨ (∃ q, pr = some q ∧ x.1 = q.1) := by
  intro rows
  induction rows with
  | nil =>
    intro pr x hx
    cases pr with
    | none => simp [coalesce] at hx
    | some q =>
      simp only [coalesce] at hx
      by_cases hq : q.1 = []
      · rw [if_pos hq] at hx
        simp at hx
      · rw [if_neg hq] at hx
        rw [List.mem_singleton] at hx
        exact Or.inr ⟨q, rfl, by rw [hx]⟩
  | cons r rest ih =>
    intro pr x hx
    cases pr with
    | none =>
      have heq : coalesce none (r :: rest) = coalesce (some r) rest := rfl
      rw [heq] at hx
      rcases ih (some r) x hx with ⟨r', hr', hxr⟩ | ⟨q, hq, hxq⟩
      · exact Or.inl ⟨r', List.mem_cons_of_mem _ hr', hxr⟩
      · have hqr : r = q := Option.some.inj hq
        exact Or.inl ⟨r, List.mem_cons_self _ _, by rw [hxq, ← hqr]⟩
    | some q =>
      simp only [coalesce] at hx
      by_cases hq : q.1 = []
      · rw [if_pos hq] at hx
        rcases ih (some r) x hx with ⟨r', hr', hxr⟩ | ⟨q', hq', hxq⟩
        · exact Or.inl ⟨r', List.mem_cons_of_mem _ hr', hxr⟩
        · have hqr : r = q' := Option.some.inj hq'
          exact Or.inl ⟨r, List.mem_cons_self _ _, by rw [hxq, ← hqr]⟩
      · rw [if_neg hq] at hx
        by_cases he : r.1 = q.1
        · rw [if_pos he] at hx
          rcases ih (some (q.1, q.2 + r.2)) x hx with ⟨r', hr', hxr⟩ | ⟨q', hq', hxq⟩
          · exact Or.inl ⟨r', List.mem_cons_of_mem _ hr', hxr⟩
          · have hqq : (q.1, q.2 + r.2) = q' := Option.some.inj hq'
            exact Or.inr ⟨q, rfl, by rw [hxq, ← hqq]⟩
        · rw [if_neg he] at hx
          rcases List.mem_cons.mp hx with hx0 | hx
          · exact Or.inr ⟨q, rfl, by rw [hx0]⟩
          · rcases ih (some r) x hx with ⟨r', hr', hxr⟩ | ⟨q', hq', hxq⟩
            · exact Or.inl ⟨r', List.mem_cons_of_mem _ hr', hxr⟩
            · have hqr : r = q' := Option.some.inj hq'
              exact Or.inl ⟨r, List.mem_cons_self _ _, by rw [hxq, ← hqr]⟩

theorem runReport_exact (input : List (Option Key)) (maxK : Int)
    (hd : datesEqLen input) :
    ∃ rows, runReport input maxK = some rows
      ∧ (rows.map (fun r => r.1)).Chain' (fun u v => strLtB u v = true)
      ∧ (∀ r ∈ rows, ∃ p ∈ validKeys input, r.1 = keyText p)
      ∧ ∀ p ∈ validKeys input,
          rowSum rows (keyText p) = (keyCount input p : Int) := by
  have hdec : ∀ c ∈ (aggregate input maxK).map chunkLines, ∀ l ∈ c,
      (decodeLine l).isSome = true := by
    intro c hc l hl
    obtain ⟨chunk, _, hceq⟩ := List.mem_map.mp hc
    rw [← hceq] at hl
    obtain ⟨e, _, hleq⟩ := List.mem_map.mp hl
    rw [← hleq, decodeLine_encodeLine]
    rfl
  have hdc : decodeChunks ((aggregate input maxK).map chunkLines)
      = (aggregate input maxK).map rowsOf := decodeChunks_encoded _
  set merged := mergeRows
    (totalLen (decodeChunks ((aggregate input maxK).map chunkLines)))
    (decodeChunks ((aggregate input maxK).map chunkLines)) with hmerged
  have hsome : countEvents ((aggregate input maxK).map chunkLines)
      = some (coalesce none merged) := countEvents_some_of_decode hdec
  have hperm : merged.Perm
      ((aggregate input maxK).map rowsOf).flatten := by
    rw [hmerged, hdc]
    exact mergeRows_perm _ _ le_rfl
  have hmem_flat : ∀ r ∈ ((aggregate input maxK).map rowsOf).flatten,
      ∃ e, (∃ chunk ∈ aggregate input maxK, e ∈ chunk)
        ∧ r = (keyText e.1, (e.2 : Int)) := by
    intro r hr
    obtain ⟨c, hc, hrc⟩ := List.mem_flatten.mp hr
    obtain ⟨chunk, hchunk, hceq⟩ := List.mem_map.mp hc
    rw [← hceq] at hrc
    obtain ⟨e, he, heeq⟩ := List.mem_map.mp hrc
    exact ⟨e, ⟨chunk, hchunk, he⟩, heeq.symm⟩
  have hkeys_ne : ∀ r ∈ merged, r.1 ≠ [] := by
    intro r hr
    obtain ⟨e, _, heq⟩ := hmem_flat r (hperm.mem_iff.mp hr)
    rw [heq]
    exact keyText_ne_nil e.1
  refine ⟨coalesce none merged, ?_, ?_, ?_, ?_⟩
  · rw [runReport]
    exact hsome
  · apply coalesce_sorted_none
    apply rowChain_to_keyChain
    rw [hmerged, hdc]
    apply mergeRows_sorted
    · intro l hl
      obtain ⟨chunk, hchunk, hleq⟩ := List.mem_map.mp hl
      rw [← hleq]
      exact keyStrict_to_chunkSorted (chunk_rows_strict hd chunk hchunk)
    · exact le_rfl
  · intro r hr
    rcases coalesce_keys merged none r hr with ⟨r', hr', hxr⟩ | ⟨q, hq, _⟩
    · obtain ⟨e, ⟨chunk, hchunk, he⟩, heq⟩ := hmem_flat r' (hperm.mem_iff.mp hr')
      refine ⟨e.1, aggregate_keys input maxK chunk hchunk e he, ?_⟩
      rw [hxr, heq]
    · cases hq
  · intro p hp
    have hsum := coalesce_rowSum merged none (keyText p) hkeys_ne (Or.inl rfl)
    rw [hsum, pendSum]
    rw [rowSum_perm hperm, rowSum_flatten]
    have hmap : ((aggregate input maxK).map
          (fun c => rowSum (rowsOf c) (keyText p)))
        = (aggregate input maxK).map (fun c => (entrySum c p : Int)) := by
      apply List.map_congr_left
      intro chunk hchunk
      apply rowSum_rowsOf
      intro e he hke
      exact keyText_inj
        (hd e.1 (aggregate_keys input maxK chunk hchunk e he) p hp) hke
    have hstep : (((aggregate input maxK).map rowsOf).map
          (fun c => rowSum c (keyText p)))
        = (aggregate input maxK).map (fun c => rowSum (rowsOf c) (keyText p)) := by
      rw [List.map_map]
      rfl
    rw [hstep, hmap, ← aggregate_chunksSum input maxK p, chunksSum,
      Nat.cast_list_sum, List.map_map]
    rw [Int.add_zero]
    rfl

/-! ### Auxiliary order facts used by the claim theorems -/

theorem pairLtB_ne {a b : Key} (h : pairLtB a b = true) : a ≠ b := by
  intro he
  rw [he] at h
  exact absurd h (bool_ne_true (pairLtB_irrefl b))

theorem chainLe_adjacent {l : List Row} (h : chunkSortedLe l) :
    equalKeysAdjacent l := by
  haveI : IsTrans Row (fun u v => rowLtB v u = false) :=
    ⟨fun _ _ _ hab hbc => rowLtB_not_lt_trans hab hbc⟩
  have hpw := List.chain'_iff_pairwise.mp h
  have hget := List.pairwise_iff_get.mp hpw
  intro i j k hi hj hk hij hjk hik
  by_cases hij' : i = j
  · subst hij'
    rfl
  · have hlt1 : i < j := lt_of_le_of_ne hij hij'
    have hk1 := rowLtB_false_key (hget ⟨i, hi⟩ ⟨j, hj⟩ hlt1)
    by_cases hjk' : j = k
    · subst hjk'
      exact hik.symm
    · have hlt2 : j < k := lt_of_le_of_ne hjk hjk'
      have h2 := rowLtB_false_key (hget ⟨j, hj⟩ ⟨k, hk⟩ hlt2)
      rw [← hik] at h2
      exact strLtB_total hk1 h2

/-! ### The claims -/

/-- C1 (amended). Exactness of the event report. Unconditionally, the union
of all spilled chunks' entries, summed by key Pair(date, event), equals the
exact per-key totals over the valid input. The merged output, however,
compares lines as whole strings while the map compares keys as tuples, and
two different keys can even encode to the same line, so the per-key claim
about the merged report needs the derived dates to share one length (as ISO
dates do): then the report exists, its key texts strictly increase, every
row is the encoding of a valid input key, and each key's row carries its
exact total. -/
theorem exactness_of_event_report (input : List (Option Key)) (maxK : Int)
    (_hpos : 1 ≤ maxK) :
    (∀ p : Key, chunksSum (aggregate input maxK) p = keyCount input p)
    ∧ (datesEqLen input →
        ∃ rows, runReport input maxK = some rows
          ∧ (rows.map (fun r => r.1)).Chain' (fun u v => strLtB u v = true)
          ∧ (∀ r ∈ rows, ∃ p ∈ validKeys input, r.1 = keyText p)
          ∧ ∀ p ∈ validKeys input,
              rowSum rows (keyText p) = (keyCount input p : Int)) :=
  ⟨fun p => aggregate_chunksSum input maxK p,
   fun hd => runReport_exact input maxK hd⟩

/-- C1 witness at a concrete input. -/
theorem exactness_of_event_report_witness :
    (1 : Int) ≤ 2
    ∧ chunksSum
        (aggregate [some (['d'], ['a']), some (['d'], ['b']),
          some (['d'], ['a']), none] 2)
        (['d'], ['a'])
      = keyCount [some (['d'], ['a']), some (['d'], ['b']),
          some (['d'], ['a']), none] (['d'], ['a']) :=
  ⟨by decide,
   (exactness_of_event_report
     [some (['d'], ['a']), some (['d'], ['b']), some (['d'], ['a']), none] 2
     (by decide)).1 (['d'], ['a'])⟩

/-- C1 counterexample. The keys ("a", "b c") and ("a b", "c") — reachable
from the timestamps "a" and "a bT0" — encode to the same line text, and
the merged report assigns that text the total 2 although only one valid
record maps to each key. -/
theorem merged_report_key_collision_cex :
    runReport [some (['a'], ['b', ' ', 'c']), some (['a', ' ', 'b'], ['c'])] 3
      = some [(['a', ' ', 'b', ' ', 'c'], 2)]
    ∧ keyCount [some (['a'], ['b', ' ', 'c']), some (['a', ' ', 'b'], ['c'])]
        (['a'], ['b', ' ', 'c']) = 1
    ∧ keyText (['a'], ['b', ' ', 'c']) = ['a', ' ', 'b', ' ', 'c']
    ∧ keyText (['a', ' ', 'b'], ['c']) = ['a', ' ', 'b', ' ', 'c'] := by
  decide

/-- C2 (amended). The reducer's output keys strictly increase — including
for zero chunks, where the output is empty — provided every chunk's lines
decode and strictly increase under the merge's own key, the encoded key
text. Chunks sorted only by the (date, event) pair can interleave under
string order and make the reducer emit one key twice. -/
theorem reducer_output_strictly_increasing :
    (∀ chunks : List (List Str),
      (∀ c ∈ chunks, ∀ l ∈ c, (decodeLine l).isSome = true) →
      (∀ c ∈ chunks,
        ((c.filterMap decodeLine).map (fun r => r.1)).Chain'
          (fun u v => strLtB u v = true)) →
      ∃ rows, countEvents chunks = some rows
        ∧ (rows.map (fun r => r.1)).Chain' (fun u v => strLtB u v = true))
    ∧ countEvents [] = some [] := by
  constructor
  · intro chunks hdec hstrict
    refine ⟨_, countEvents_some_of_decode hdec, ?_⟩
    apply coalesce_sorted_none
    apply rowChain_to_keyChain
    apply mergeRows_sorted
    · intro l hl
      obtain ⟨c, hc, hleq⟩ := List.mem_map.mp hl
      rw [← hleq]
      exact keyStrict_to_chunkSorted (hstrict c hc)
    · exact le_rfl
  · rfl

/-- C2 witness at two concrete sorted chunks. -/
theorem reducer_output_strictly_increasing_witness :
    ∃ rows,
      countEvents [[['d', ' ', 'a', ',', '1', '\n'], ['d', ' ', 'b', ',', '1', '\n']],
        [['d', ' ', 'a', ',', '1', '\n']]] = some rows
      ∧ (rows.map (fun r => r.1)).Chain' (fun u v => strLtB u v = true) :=
  reducer_output_strictly_increasing.1
    [[['d', ' ', 'a', ',', '1', '\n'], ['d', ' ', 'b', ',', '1', '\n']],
      [['d', ' ', 'a', ',', '1', '\n']]]
    (by decide)
    (by
      intro c hc
      rcases List.mem_cons.mp hc with h | h
      · subst h
        exact List.Chain.cons (by decide) List.Chain.nil
      · rcases List.mem_cons.mp h with h2 | h2
        · subst h2
          exact List.Chain.nil
        · cases h2)

/-- C2 counterexample. Two chunks that are strictly ascending by decoded
(date, event) pair — the date "a\x01" is reachable from the timestamp
"a\x01T0" — on which the reducer emits the key text "a z" twice, so its
output keys are not strictly increasing. -/
theorem reducer_duplicate_key_cex :
    ((List.filterMap specDecodeLine
        [['a', ' ', 'z', ',', '1', '\n'],
         ['a', Char.ofNat 1, ' ', 'y', ',', '1', '\n']]).map
      (fun r => r.1)).Chain' (fun p q => pairLtB p q = true)
    ∧ ((List.filterMap specDecodeLine [['a', ' ', 'z', ',', '1', '\n']]).map
        (fun r => r.1)).Chain' (fun p q => pairLtB p q = true)
    ∧ countEvents
        [[['a', ' ', 'z', ',', '1', '\n'],
          ['a', Char.ofNat 1, ' ', 'y', ',', '1', '\n']],
         [['a', ' ', 'z', ',', '1', '\n']]]
      = some [(['a', ' ', 'z'], 1), (['a', Char.ofNat 1, ' ', 'y'], 1),
          (['a', ' ', 'z'], 1)]
    ∧ ¬ (([['a', ' ', 'z'], ['a', Char.ofNat 1, ' ', 'y'], ['a', ' ', 'z']]
        : List Str).Chain' (fun u v => strLtB u v = true)) := by
  refine ⟨?_, ?_, by decide, ?_⟩
  · exact List.Chain.cons (by decide) List.Chain.nil
  · exact List.Chain.nil
  · intro h
    exact absurd (List.chain'_cons.mp h).1 (by decide)

/-- C3 (amended). The code validates max_keys_count nowhere: with a zero or
negative bound the run does not fail — the length test of the spill branch
always fires, so the aggregator spills after every valid record, one
singleton chunk per record. -/
theorem nonpositive_max_keys_spills_every_record (input : List (Option Key))
    (maxK : Int) (h : maxK ≤ 0) :
    aggregate input maxK = (validKeys input).map (fun k => [(k, 1)]) :=
  aggregate_le_one input maxK (by omega)

/-- C3 witness at max_keys_count = 0. -/
theorem nonpositive_max_keys_spills_every_record_witness :
    (0 : Int) ≤ 0
    ∧ aggregate [some (['d'], ['a']), none] 0
      = (validKeys [some (['d'], ['a']), none]).map (fun k => [(k, 1)]) :=
  ⟨le_refl 0,
   nonpositive_max_keys_spills_every_record [some (['d'], ['a']), none] 0
     (le_refl 0)⟩

/-- C3 counterexample. With max_keys_count = 0 and one valid record the run
raises no ConfigurationError: a chunk is produced and a report is written. -/
theorem nonpositive_max_keys_run_completes_cex :
    aggregate [some (['d'], ['a'])] 0 = [[((['d'], ['a']), 1)]]
    ∧ runReport [some (['d'], ['a'])] 0 = some [(['d', ' ', 'a'], 1)] := by
  decide

/-- C4 (amended). Decoding a chunk line fails exactly when the line has no
comma or the text after its last comma is not a valid Python integer
literal — which accepts a sign, so negative counts decode fine — and any
malformed line is fatal: count_events yields no output at all, exactly
when such a line exists. -/
theorem malformed_chunk_line_is_fatal :
    (∀ text : Str, decodeLine text = none ↔
      (',' ∉ text ∨ ∃ k v, rsplitComma text = some (k, v) ∧ pyInt v = none))
    ∧ ∀ chunks : List (List Str),
        countEvents chunks = none ↔ ∃ l ∈ chunks.flatten, decodeLine l = none :=
  ⟨decodeLine_eq_none_iff, countEvents_none_iff⟩

/-- C4 counterexample. The line "a b,-1" has a count that is not a valid
non-negative integer, yet partition_function decodes it without error. -/
theorem negative_count_decodes_cex :
    decodeLine ['a', ' ', 'b', ',', '-', '1', '\n']
      = some (['a', ' ', 'b'], -1)
    ∧ (-1 : Int) < 0 := by
  decide

/-- C5. For every input and every max_keys_count at least 1, the in-memory
map holds at most max_keys_count keys at the start of processing each
record, and whenever an insertion reaches the bound the spill branch
empties the map. -/
theorem map_size_never_exceeds_bound (maxK : Int) (hpos : 1 ≤ maxK) :
    (∀ (input : List (Option Key)) (i : Nat),
      ((aggState input maxK i).length : Int) ≤ maxK)
    ∧ ∀ (m : List Entry) (cs : List (List Entry)) (k : Key),
        maxK ≤ ((bump m k).length : Int) →
        (aggStep maxK (m, cs) (some k)).1 = [] := by
  constructor
  · intro input i
    exact le_of_lt (aggState_lt maxK hpos input i)
  · intro m cs k h
    simp [aggStep, if_pos h]

/-- C5 witness at max_keys_count = 1. -/
theorem map_size_never_exceeds_bound_witness :
    (1 : Int) ≤ 1
    ∧ ((aggState [some (['d'], ['a']), some (['d'], ['b'])] 1 2).length : Int) ≤ 1
    ∧ (aggStep 1 ([], []) (some (['d'], ['a']))).1 = [] :=
  ⟨le_refl 1,
   (map_size_never_exceeds_bound 1 (le_refl 1)).1
     [some (['d'], ['a']), some (['d'], ['b'])] 2,
   (map_size_never_exceeds_bound 1 (le_refl 1)).2 [] [] (['d'], ['a'])
     (by decide)⟩

/-- C6. Every chunk the aggregator yields — the final spill included — is
strictly ascending by key and holds no duplicate keys. -/
theorem chunks_sorted_no_duplicate_keys (input : List (Option Key))
    (maxK : Int) :
    ∀ chunk ∈ aggregate input maxK,
      chunk.Pairwise (fun a b => pairLtB a.1 b.1 = true)
      ∧ (chunk.map (fun e => e.1)).Nodup := by
  intro chunk hc
  have hs : chunk.Pairwise (fun a b => pairLtB a.1 b.1 = true) :=
    aggregate_sorted input maxK chunk hc
  refine ⟨hs, ?_⟩
  exact List.Pairwise.map (fun e : Entry => e.1)
    (fun a b hab => pairLtB_ne hab) hs

/-- C6 witness at a concrete two-key chunk. -/
theorem chunks_sorted_no_duplicate_keys_witness :
    [((['d'], ['a']), 1), ((['d'], ['b']), 1)].Pairwise
      (fun a b => pairLtB a.1 b.1 = true)
    ∧ ([((['d'], ['a']), 1), ((['d'], ['b']), 1)].map (fun e => e.1)).Nodup :=
  chunks_sorted_no_duplicate_keys [some (['d'], ['a']), some (['d'], ['b'])] 5
    [((['d'], ['a']), 1), ((['d'], ['b']), 1)] (by decide)

/-- C7 (amended). Decoding a written line recovers the (date, event_name,
count) triple only when the date itself contains no space: the writer joins
date and event with a space and the reader resplits on the first space, so
any space inside the date shifts the boundary. -/
theorem decode_recovers_encoded_pair (d e : Str) (c : Nat) (hd : ' ' ∉ d) :
    specDecodeLine (encodeLine (d, e) c) = some (((d, e) : Key), (c : Int)) := by
  have hk : keyText (d, e) = d ++ ' ' :: e := rfl
  rw [specDecodeLine, decodeLine_encodeLine]
  show (splitFirstSpace (keyText (d, e))).map
      (fun de2 => ((de2.1, de2.2), ((c : Nat) : Int))) = some ((d, e), (c : Int))
  rw [hk, splitFirstSpace_append hd]
  rfl

/-- C7 witness at the pair ("d", "e") with count 2. -/
theorem decode_recovers_encoded_pair_witness :
    ' ' ∉ (['d'] : Str)
    ∧ specDecodeLine (encodeLine (['d'], ['e']) 2)
      = some (((['d'], ['e']) : Key), (2 : Int)) :=
  ⟨by decide, decode_recovers_encoded_pair ['d'] ['e'] 2 (by decide)⟩

/-- C7 counterexample. The key ("a b", "c") — reachable from the timestamp
"a bT0" — encodes to the line "a b c,1", which decodes to the different
key ("a", "b c"). -/
theorem decode_space_date_cex :
    specDecodeLine (encodeLine (['a', ' ', 'b'], ['c']) 1)
      = some (((['a'], ['b', ' ', 'c']) : Key), (1 : Int))
    ∧ ((['a'], ['b', ' ', 'c']) : Key) ≠ (['a', ' ', 'b'], ['c']) := by
  decide

/-- C8 (amended). With max_keys_count = 1 the aggregator does not emit one
chunk per distinct key: the spill branch fires on every insertion, so it
emits one singleton chunk per valid record — duplicates included — and the
totals are still exact. -/
theorem max_one_spill_per_record_still_exact (input : List (Option Key))
    (maxK : Int) (h1 : maxK = 1) :
    aggregate input maxK = (validKeys input).map (fun k => [(k, 1)])
    ∧ (∀ p : Key, chunksSum (aggregate input maxK) p = keyCount input p)
    ∧ (datesEqLen input →
        ∃ rows, runReport input maxK = some rows
          ∧ ∀ p ∈ validKeys input,
              rowSum rows (keyText p) = (keyCount input p : Int)) := by
  subst h1
  refine ⟨aggregate_le_one input 1 le_rfl,
    fun p => aggregate_chunksSum input 1 p, ?_⟩
  intro hd
  obtain ⟨rows, hr, _, _, h4⟩ := runReport_exact input 1 hd
  exact ⟨rows, hr, h4⟩

/-- C8 witness at a two-record input. -/
theorem max_one_spill_per_record_still_exact_witness :
    (1 : Int) = 1
    ∧ aggregate [some (['d'], ['a']), some (['d'], ['a'])] 1
      = (validKeys [some (['d'], ['a']), some (['d'], ['a'])]).map
          (fun k => [(k, 1)])
    ∧ chunksSum (aggregate [some (['d'], ['a']), some (['d'], ['a'])] 1)
        (['d'], ['a'])
      = keyCount [some (['d'], ['a']), some (['d'], ['a'])] (['d'], ['a']) :=
  ⟨rfl,
   (max_one_spill_per_record_still_exact
     [some (['d'], ['a']), some (['d'], ['a'])] 1 rfl).1,
   (max_one_spill_per_record_still_exact
     [some (['d'], ['a']), some (['d'], ['a'])] 1 rfl).2.1 (['d'], ['a'])⟩

/-- C8 counterexample. Two records of one single distinct key at
max_keys_count = 1 yield two chunks, not one chunk per distinct key. -/
theorem single_key_two_spills_cex :
    aggregate [some (['d'], ['a']), some (['d'], ['a'])] 1
      = [[((['d'], ['a']), 1)], [((['d'], ['a']), 1)]]
    ∧ (validKeys [some (['d'], ['a']), some (['d'], ['a'])]).dedup
      = [(['d'], ['a'])] := by
  decide

/-- C9. partition_function returns the (key, count) pair regardless of the
only_key flag — Python's conditional binds before the tuple comma, so
`k if only_key else k, int(v)` is always a pair — and the merge is stable
enough for the reducer: it keeps rows non-decreasing by line text, which
places all rows of one key text adjacently. -/
theorem partition_function_flag_and_merge_adjacency :
    (∀ (text : Str) (b : Bool), partitionFn text b = partitionFn text true)
    ∧ ∀ (fuel : Nat) (chunks : List (List Row)),
        (∀ c ∈ chunks, chunkSortedLe c) → totalLen chunks ≤ fuel →
        chunkSortedLe (mergeRows fuel chunks)
        ∧ equalKeysAdjacent (mergeRows fuel chunks) := by
  constructor
  · intro text b
    cases b <;> rfl
  · intro fuel chunks hs hf
    have hm := mergeRows_sorted fuel chunks hs hf
    exact ⟨hm, chainLe_adjacent hm⟩

/-- C10. Schema.validate's docstring and the spec promise that an invalid
line is logged and skipped, but a line whose JSON value is not a dict — the
valid JSON line "5" — makes `field.name not in raw_event` raise an uncaught
TypeError that aborts the whole run, while schema-invalid dicts and
non-JSON lines are indeed skipped without affecting the counts of the
remaining valid records. -/
theorem int_line_aborts_run :
    runAgg schema01 [InLine.value (PyVal.pint 5)] 1 = Except.error VErr.typeErr
    ∧ runAgg schema01
        [InLine.value (PyVal.pdict
          [(tsName, PyVal.pint 3), (evName, PyVal.pstr ['a'])]),
         InLine.malformed,
         InLine.value (PyVal.pdict
          [(tsName, PyVal.pstr ['d', 'T', 'x']), (evName, PyVal.pstr ['a'])])]
        10
      = Except.ok [[((['d'], ['a']), 1)]]
    ∧ ∀ (input : List (Option Key)) (maxK : Int),
        aggregate input maxK = aggregate ((validKeys input).map some) maxK :=
  ⟨rfl, rfl, aggregate_skip⟩

end EventCounter

